import Mathlib

/-!
Verification of the zensical development server and file watcher core.

This file shallowly embeds the parts of the `zensical-serve` and
`zensical-watch` crates that the checked properties talk about:

* the query-string percent codec (`encoding.rs` of the query module),
  modelled at the byte level (a Rust `&str` is represented by its UTF-8
  byte sequence, each byte a `Nat` below 256; percent-decoding followed by
  `decode_utf8_lossy` is the identity on the valid UTF-8 bytes produced by
  re-encoding, so the lossy step is dropped),
* query-string parsing (`query.rs`), request parsing (`request.rs`) and the
  URI model, at the character level (the concrete inputs are ASCII, where
  Rust byte indices and character indices coincide),
* the `BasePath`, `StaticFiles` and `WebSocketHandshake` middlewares,
  with the filesystem, clock and date parsing passed in as explicit
  parameters,
* the file manager of `zensical-watch` (`manager.rs`), with the filesystem
  passed in as an explicit structure; `BTreeMap`s become sorted
  association lists, `HashMap`s become association lists.
-/

set_option maxRecDepth 10000

namespace Zensical

/-! ## Query-string percent codec (`http/request/uri/query/encoding.rs`)

Bytes are `Nat`s; the Rust code operates on UTF-8 bytes of `&str` values.
-/

/-- Set of bytes percent-encoded by the query-string serializer: the C0
controls and DEL (`percent_encoding::CONTROLS`), every non-ASCII byte
(always encoded by `utf8_percent_encode`), and the added set
space `"` `#` `%` `<` `>` `[` `]` `^` backtick `\x7b` `|` `\x7d` `=`. -/
def shouldEncode (b : Nat) : Bool :=
  b < 0x20 || b == 0x7f || 0x80 ≤ b ||
  b == 0x20 || b == 0x22 || b == 0x23 || b == 0x25 || b == 0x3c || b == 0x3e ||
  b == 0x5b || b == 0x5d || b == 0x5e || b == 0x60 || b == 0x7b || b == 0x7c ||
  b == 0x7d || b == 0x3d

/-- Upper-case hex digit byte for a nibble, as emitted by `percent_encoding`. -/
def hexUpper (n : Nat) : Nat :=
  if n < 10 then 48 + n else 55 + n

/-- Hex digit predicate accepted by the percent decoder (both cases). -/
def isHexDigit (c : Nat) : Bool :=
  (48 ≤ c && c ≤ 57) || (65 ≤ c && c ≤ 70) || (97 ≤ c && c ≤ 102)

/-- Value of a hex digit byte. -/
def hexVal (c : Nat) : Nat :=
  if c ≤ 57 then c - 48 else if c ≤ 70 then c - 55 else c - 87

/-- Embedding of `encode`: percent-encode every byte in the reserved set,
pass all other bytes through (`utf8_percent_encode` with the `SET` above). -/
def encodeQS : List Nat → List Nat
  | [] => []
  | b :: rest =>
    (if shouldEncode b then [0x25, hexUpper (b / 16), hexUpper (b % 16)] else [b])
      ++ encodeQS rest

/-- Embedding of `percent_decode`: a `%` followed by two hex digits becomes
the denoted byte; a `%` not followed by two hex digits is passed through
literally; all other bytes are passed through. -/
def percentDecode : List Nat → List Nat
  | [] => []
  | [b] => [b]
  | [b, h] => b :: percentDecode [h]
  | b :: h :: l :: rest =>
    if b = 0x25 then
      if isHexDigit h && isHexDigit l then
        (hexVal h * 16 + hexVal l) :: percentDecode rest
      else
        0x25 :: percentDecode (h :: l :: rest)
    else
      b :: percentDecode (h :: l :: rest)

/-- Embedding of `decode`: when the input contains a `+` (byte 43), every
`+` is first replaced by a space (byte 32), then the result is
percent-decoded; otherwise the input is percent-decoded directly. -/
def decodeQS (bs : List Nat) : List Nat :=
  if 43 ∈ bs then
    percentDecode (bs.map fun b => if b == 43 then 32 else b)
  else
    percentDecode bs

theorem hexUpper_isHexDigit (n : Nat) (h : n < 16) :
    isHexDigit (hexUpper n) = true := by
  simp only [isHexDigit, hexUpper, Bool.or_eq_true, Bool.and_eq_true,
    decide_eq_true_eq]
  split <;> omega

theorem hexVal_hexUpper (n : Nat) (h : n < 16) : hexVal (hexUpper n) = n := by
  rcases Nat.lt_or_ge n 10 with h10 | h10
  · simp only [hexUpper, if_pos h10, hexVal]
    rw [if_pos (by omega : 48 + n ≤ 57)]
    omega
  · simp only [hexUpper, if_neg (by omega : ¬ n < 10), hexVal]
    rw [if_neg (by omega : ¬ 55 + n ≤ 57), if_pos (by omega : 55 + n ≤ 70)]
    omega

theorem hexUpper_ne_plus (n : Nat) : hexUpper n ≠ 43 := by
  unfold hexUpper; split <;> omega

theorem percentDecode_cons_ne (b : Nat) (rest : List Nat) (hb : b ≠ 0x25) :
    percentDecode (b :: rest) = b :: percentDecode rest := by
  match rest with
  | [] => simp [percentDecode]
  | [h] => simp [percentDecode]
  | h :: l :: t => simp [percentDecode, hb]

/-- The encoder never emits a `+` when its input has none: literal bytes come
from the input, and the escape machinery emits only `%` and hex digits. -/
theorem encodeQS_no_plus (bs : List Nat) (h : 43 ∉ bs) : 43 ∉ encodeQS bs := by
  induction bs with
  | nil => simp [encodeQS]
  | cons b rest ih =>
    simp only [List.mem_cons, not_or] at h
    simp only [encodeQS, List.mem_append, not_or]
    refine ⟨?_, ih h.2⟩
    split
    · simp only [List.mem_cons, List.not_mem_nil, not_or, or_false]
      exact ⟨by decide, fun hc => hexUpper_ne_plus (b / 16) hc.symm,
        fun hc => hexUpper_ne_plus (b % 16) hc.symm⟩
    · simp only [List.mem_cons, List.not_mem_nil, not_or, or_false]
      exact h.1

/-- Percent-encoding a byte and then decoding the result prepends the byte
to the decoding of the remainder. -/
theorem percentDecode_encodeQS_cons (b : Nat) (t : List Nat) (hb : b < 256) :
    percentDecode ((if shouldEncode b then
        [0x25, hexUpper (b / 16), hexUpper (b % 16)] else [b]) ++ t) =
      b :: percentDecode t := by
  by_cases henc : shouldEncode b = true
  · have hdiv : b / 16 < 16 := by omega
    have hmod : b % 16 < 16 := by omega
    rw [if_pos henc]
    show percentDecode (0x25 :: hexUpper (b / 16) :: hexUpper (b % 16) :: t) = _
    simp only [percentDecode, if_pos rfl,
      hexUpper_isHexDigit _ hdiv, hexUpper_isHexDigit _ hmod]
    simp only [Bool.and_self, if_true]
    rw [hexVal_hexUpper _ hdiv, hexVal_hexUpper _ hmod]
    congr 1
    omega
  · have hb37 : b ≠ 0x25 := by
      intro hcontra; subst hcontra; exact henc (by decide)
    rw [if_neg henc]
    show percentDecode (b :: t) = _
    exact percentDecode_cons_ne b t hb37

/-- Percent-decoding undoes percent-encoding, byte for byte. -/
theorem percentDecode_encodeQS (bs : List Nat) (h : ∀ b ∈ bs, b < 256) :
    percentDecode (encodeQS bs) = bs := by
  induction bs with
  | nil => rfl
  | cons b rest ih =>
    have hb : b < 256 := h b (by simp)
    have hrest : ∀ x ∈ rest, x < 256 := fun x hx => h x (by simp [hx])
    rw [encodeQS, percentDecode_encodeQS_cons b _ hb, ih hrest]

/-- C3, amended: the query-string codec round-trips every string that
contains no `+`: if no byte of `bs` is `+` (43) then
`decode (encode bs) = bs`. -/
theorem decodeQS_encodeQS_of_no_plus (bs : List Nat)
    (hbytes : ∀ b ∈ bs, b < 256) (hplus : ¬ 43 ∈ bs) :
    decodeQS (encodeQS bs) = bs := by
  unfold decodeQS
  rw [if_neg (encodeQS_no_plus bs hplus)]
  exact percentDecode_encodeQS bs hbytes

/-- C3, counterexample: the claimed law `decode (encode s) = s` for every
Unicode string fails at `s = "+"`: the byte 43 (`+`) is not in the reserved
set, so `encode` leaves it alone, and `decode` maps it to a space (32). -/
theorem decodeQS_encodeQS_plus_counterexample :
    decodeQS (encodeQS [43]) = [32] ∧ decodeQS (encodeQS [43]) ≠ [43] := by
  constructor <;> decide

/-- Witness for the amended round-trip law at the UTF-8 bytes of
`"a %=\xc3\xa9"` (letter, space, percent, equals, a two-byte scalar). -/
theorem decodeQS_encodeQS_witness :
    decodeQS (encodeQS [97, 32, 37, 61, 195, 169]) = [97, 32, 37, 61, 195, 169] :=
  decodeQS_encodeQS_of_no_plus [97, 32, 37, 61, 195, 169] (by decide) (by decide)

/-! ## Character-level codec

The parsing code of `query.rs` and `request.rs` works on `&str` values; the
concrete inputs of the claims are ASCII, where Rust byte indices coincide
with character indices, so these components are embedded over `List Char`.
-/

/-- Character-level percent decoder (see `percentDecode` for the byte-level
behaviour being mirrored; a decoded escape denotes the scalar with that
value, which agrees with `decode_utf8_lossy` on ASCII data). -/
def percentDecodeC : List Char → List Char
  | [] => []
  | [c] => [c]
  | [c, h] => c :: percentDecodeC [h]
  | c :: h :: l :: rest =>
    if c = '%' then
      if isHexDigit h.toNat && isHexDigit l.toNat then
        Char.ofNat (hexVal h.toNat * 16 + hexVal l.toNat) :: percentDecodeC rest
      else
        '%' :: percentDecodeC (h :: l :: rest)
    else
      c :: percentDecodeC (h :: l :: rest)

/-- Embedding of the query-string `decode` at the character level: replace
`+` by a space when present, then percent-decode. -/
def decodeQC (cs : List Char) : List Char :=
  if '+' ∈ cs then
    percentDecodeC (cs.map fun c => if c == '+' then ' ' else c)
  else
    percentDecodeC cs

/-! ## Query-string parsing (`http/request/uri/query.rs`) -/

/-- Slice `value[start..stop]` of a character list. -/
def slice (cs : List Char) (start stop : Nat) : List Char :=
  (cs.take stop).drop start

/-- Embedding of the parsing loop of `impl From<&str> for Query`: iterate
over the indexed characters (with the sentinel `&` appended at the end),
keeping the slice start, the current pair index, and the pairs collected so
far.  An `=` while the index equals the number of pairs starts a new pair
with the decoded key; an `&` whose guard `start != i.saturating_sub(1)`
holds either fills the pending pair's empty value or pushes a new pair. All
other characters are consumed verbatim. -/
def queryStep (value : List Char) :
    List (Nat × Char) → Nat → Nat → List (List Char × List Char) →
      List (List Char × List Char)
  | [], _, _, pairs => pairs
  | (i, c) :: rest, start, idx, pairs =>
    if c = '=' ∧ idx = pairs.length then
      queryStep value rest (i + 1) idx
        (pairs ++ [(decodeQC (slice value start i), [])])
    else if c = '&' ∧ start ≠ i - 1 then
      let pairs' :=
        match pairs.get? idx with
        | some pr =>
          if pr.2 = [] then
            pairs.set idx (pr.1, decodeQC (slice value start i))
          else
            pairs ++ [(decodeQC (slice value start i), [])]
        | none => pairs ++ [(decodeQC (slice value start i), [])]
      queryStep value rest (i + 1) (idx + 1) pairs'
    else
      queryStep value rest start idx pairs

/-- Embedding of `Query::from`: run the parsing loop over the enumerated
characters followed by the sentinel separator. -/
def queryFrom (cs : List Char) : List (List Char × List Char) :=
  queryStep cs (cs.enum ++ [(cs.length, '&')]) 0 0 []

/-- Embedding of `Query::get`: first value stored under the key. -/
def queryGet (q : List (List Char × List Char)) (key : List Char) :
    Option (List Char) :=
  (q.find? fun p => p.1 == key).map (·.2)

/-- Embedding of `Query::get_all`: all values stored under the key, in
order. -/
def queryGetAll (q : List (List Char × List Char)) (key : List Char) :
    List (List Char) :=
  (q.filter fun p => p.1 == key).map (·.2)

/-- Embedding of `Query::contains`. -/
def queryContains (q : List (List Char × List Char)) (key : List Char) :
    Bool :=
  q.any fun p => p.1 == key

/-- C2: evaluating the parser at the input `"a=1&a=2&b="`.  The guard
`start != i.saturating_sub(1)` in the parsing loop skips every separator
that closes a one-character segment, so the `&` after `a=1` is consumed
verbatim into the pending value: the code produces the parameter list
`[("a", "1&a=2"), ("b", "")]` instead of the documented
`[("a", "1"), ("a", "2"), ("b", "")]`, and `get("a")` returns `"1&a=2"`. -/
theorem queryFrom_c2_eval :
    queryFrom ("a=1&a=2&b=").data
        = [(("a").data, ("1&a=2").data), (("b").data, [])] ∧
      queryGet (queryFrom ("a=1&a=2&b=").data) (("a").data)
        = some (("1&a=2").data) ∧
      queryGetAll (queryFrom ("a=1&a=2&b=").data) (("a").data)
        = [("1&a=2").data] ∧
      queryContains (queryFrom ("a=1&a=2&b=").data) (("b").data) = true ∧
      queryFrom ("a=1&a=2&b=").data
        ≠ [(("a").data, ("1").data), (("a").data, ("2").data),
            (("b").data, [])] := by
  refine ⟨?_, ?_, ?_, ?_, ?_⟩ <;> decide

/-! ## HTTP data model (`http/component`, `http/request`, `http/response`) -/

/-- HTTP method (`component/method.rs`): the eight standard verbs. -/
inductive Method where
  | get | head | post | put | delete | options | trace | patch
deriving DecidableEq, Repr

/-- Embedding of `Method::from_str`: case-insensitive table lookup. -/
def Method.fromStr (s : List Char) : Option Method :=
  let up := s.map Char.toUpper
  if up = ("GET").data then some .get
  else if up = ("HEAD").data then some .head
  else if up = ("POST").data then some .post
  else if up = ("PUT").data then some .put
  else if up = ("DELETE").data then some .delete
  else if up = ("OPTIONS").data then some .options
  else if up = ("TRACE").data then some .trace
  else if up = ("PATCH").data then some .patch
  else none

/-- HTTP status (`component/status.rs`), restricted to the statuses reached
by the checked properties. -/
inductive Status where
  | switchingProtocols | ok | found | notModified | badRequest | notFound
  | methodNotAllowed | payloadTooLarge | uriTooLong
  | requestHeaderFieldsTooLarge | upgradeRequired
deriving DecidableEq, Repr

/-- Reason phrase of a status (`Status::name`). -/
def Status.name : Status → List Char
  | .switchingProtocols => ("Switching Protocols").data
  | .ok => ("OK").data
  | .found => ("Found").data
  | .notModified => ("Not Modified").data
  | .badRequest => ("Bad Request").data
  | .notFound => ("Not Found").data
  | .methodNotAllowed => ("Method Not Allowed").data
  | .payloadTooLarge => ("Payload Too Large").data
  | .uriTooLong => ("URI Too Long").data
  | .requestHeaderFieldsTooLarge => ("Request Header Fields Too Large").data
  | .upgradeRequired => ("Upgrade Required").data

/-- HTTP header names (`component/header.rs`), restricted to the subset of
the closed enum that the checked properties mention; every other name
behaves as an unknown header and is dropped during request parsing. -/
inductive Header where
  | allow | cacheControl | connection | contentLength | contentType | date
  | host | ifModifiedSince | lastModified | location | secWebSocketAccept
  | secWebSocketKey | secWebSocketVersion | upgrade
deriving DecidableEq, Repr

/-- Embedding of `Header::from_str`: case-insensitive table lookup, `none`
for unknown names (dropped by the request parser). -/
def Header.fromStr (s : List Char) : Option Header :=
  let low := s.map Char.toLower
  if low = ("allow").data then some .allow
  else if low = ("cache-control").data then some .cacheControl
  else if low = ("connection").data then some .connection
  else if low = ("content-length").data then some .contentLength
  else if low = ("content-type").data then some .contentType
  else if low = ("date").data then some .date
  else if low = ("host").data then some .host
  else if low = ("if-modified-since").data then some .ifModifiedSince
  else if low = ("last-modified").data then some .lastModified
  else if low = ("location").data then some .location
  else if low = ("sec-websocket-accept").data then some .secWebSocketAccept
  else if low = ("sec-websocket-key").data then some .secWebSocketKey
  else if low = ("sec-websocket-version").data then some .secWebSocketVersion
  else if low = ("upgrade").data then some .upgrade
  else none

/-- Header maps (`BTreeMap<Header, _>` in both request and response) are
embedded as association lists with unique keys; `insert` replaces the value
of an existing key in place and appends a new key at the end (the `BTreeMap`
iterates in key order, which none of the checked properties observe). -/
def hInsert (hs : List (Header × List Char)) (k : Header) (v : List Char) :
    List (Header × List Char) :=
  if hs.any fun p => p.1 == k then
    hs.map fun p => if p.1 == k then (k, v) else p
  else
    hs ++ [(k, v)]

/-- Lookup in a header map (`Headers::get`). -/
def hGet (hs : List (Header × List Char)) (k : Header) : Option (List Char) :=
  (hs.find? fun p => p.1 == k).map (·.2)

/-- Request URI (`http/request/uri.rs`): percent-decoded path and parsed
query parameters. -/
structure Uri where
  path : List Char
  query : List (List Char × List Char)
deriving DecidableEq, Repr

/-- Modelled from the spec: the URI path codec of `http/request/uri/encoding.rs`
is not in the source tree; per the spec the path is the percent-decoded
request target (`+` is significant only in query values), so the path
decoder is the plain percent decoder. -/
def decodePath (cs : List Char) : List Char :=
  percentDecodeC cs

/-- Splits a character list at the first occurrence of a separator. -/
def splitOnceL (sep : Char) : List Char → Option (List Char × List Char)
  | [] => none
  | c :: rest =>
    if c = sep then some ([], rest)
    else (splitOnceL sep rest).map fun pr => (c :: pr.1, pr.2)

/-- Embedding of `Uri::from`: split at the first `?`, percent-decode the
path, and parse the query string (empty when there is none). -/
def uriFrom (cs : List Char) : Uri :=
  match splitOnceL '?' cs with
  | some (p, q) => { path := decodePath p, query := queryFrom q }
  | none => { path := decodePath cs, query := [] }

/-- HTTP request (`http/request.rs`). -/
structure Request where
  method : Method
  uri : Uri
  headers : List (Header × List Char)
  body : List Char
deriving DecidableEq, Repr

/-- HTTP response (`http/response.rs`); the body is owned bytes. -/
structure Response where
  status : Status
  headers : List (Header × List Char)
  body : List Nat
deriving DecidableEq, Repr

/-- Embedding of `Response::default` / `Response::new`. -/
def Response.new : Response :=
  { status := .ok, headers := [], body := [] }

/-- Embedding of the `Response::status` builder. -/
def Response.withStatus (r : Response) (s : Status) : Response :=
  { r with status := s }

/-- Embedding of the `Response::header` builder. -/
def Response.header (r : Response) (k : Header) (v : List Char) : Response :=
  { r with headers := hInsert r.headers k v }

/-- Embedding of the `Response::body` builder. -/
def Response.withBody (r : Response) (b : List Nat) : Response :=
  { r with body := b }

/-- Decimal digits of a natural number, for stringified header values. -/
def natChars (n : Nat) : List Char :=
  (Nat.repr n).data

/-- Embedding of `ResponseExt::text`: sets Content-Type and Content-Length
and stores the text as the body bytes. -/
def Response.text (r : Response) (content : List Char) : Response :=
  ((r.header .contentType ("text/plain; charset=utf-8").data).header
      .contentLength (natChars content.length)).withBody
    (content.map Char.toNat)

/-- Embedding of `ResponseExt::from_status`. -/
def Response.fromStatus (s : Status) : Response :=
  (Response.new.withStatus s).text s.name

/-- Embedding of `ResponseExt::redirect`: 302 Found with the Location set
and Content-Length 0. -/
def Response.redirect (location : List Char) : Response :=
  ((Response.new.withStatus .found).header .location location).header
    .contentLength (natChars 0)

/-- Handlers are the behavioural contract `Request → Response`. -/
def Handler : Type :=
  Request → Response

/-! ## Request parsing (`Request::from_bytes`) -/

/-- Parse errors of `Request::from_bytes` (`request/error.rs`). -/
inductive ReqError where
  | incomplete | parser | component
  | validation (s : Status)
deriving DecidableEq, Repr

/-- Strips a verbatim pattern from the front of a list, or fails. -/
def stripPre (pat l : List Char) : Option (List Char) :=
  if pat.isPrefixOf l then some (l.drop pat.length) else none

/-- Splits a character list at the first CRLF. -/
def splitCRLF : List Char → Option (List Char × List Char)
  | [] => none
  | '\r' :: '\n' :: rest => some ([], rest)
  | c :: rest => (splitCRLF rest).map fun pr => (c :: pr.1, pr.2)

/-- Drops spaces from both ends of a header value, as the incremental
parser does before handing values to `from_bytes`. -/
def trimValue (cs : List Char) : List Char :=
  ((cs.dropWhile fun c => c = ' ').reverse.dropWhile fun c => c = ' ').reverse

/-- Reads CRLF-terminated `name: value` header lines up to the blank line;
returns the lines and the remaining body.  The fuel argument bounds the
recursion by the input length (each line consumes at least the CRLF). -/
def headerLinesF : Nat → List Char → Option (List (List Char × List Char) × List Char)
  | 0, _ => none
  | fuel + 1, cs =>
    match splitCRLF cs with
    | none => none
    | some (line, rest) =>
      if line = [] then some ([], rest)
      else
        match splitOnceL ':' line with
        | none => none
        | some (name, value) =>
          (headerLinesF fuel rest).map fun pr =>
            ((name, trimValue value) :: pr.1, pr.2)

/-- Modelled from the spec: the external incremental HTTP/1.x parser
(the `httparse` crate), restricted to complete well-formed requests —
method and request-target separated by single spaces, an `HTTP/1.1`
version, CRLF-separated `name: value` header lines, a blank line, then the
body as the remaining input. -/
def parseHttp (cs : List Char) :
    Option (List Char × List Char × List (List Char × List Char) × List Char) := do
  let (m, rest) ← splitOnceL ' ' cs
  let (target, rest2) ← splitOnceL ' ' rest
  let rest3 ← stripPre ("HTTP/1.1\r\n").data rest2
  let (lines, body) ← headerLinesF (rest3.length + 1) rest3
  pure (m, target, lines, body)

/-- Whether `".."` occurs as a substring of the path, the quick check of
`from_bytes` before the component walk. -/
def containsDotDot (cs : List Char) : Bool :=
  decide (['.', '.'] <:+: cs)

/-- Path segments split at `/`, mirroring how `std::path::Path::components`
cuts a Unix path into components: a component is `ParentDir` exactly when
the segment between two separators is `".."`. -/
def splitSlash : List Char → List (List Char)
  | [] => [[]]
  | c :: t =>
    if c = '/' then [] :: splitSlash t
    else
      match splitSlash t with
      | [] => [[c]]
      | s :: ss => (c :: s) :: ss

/-- Whether the path contains a parent-directory (`".."`) component, i.e.
whether `Path::components` yields a `Component::ParentDir`. -/
def hasParentDir (cs : List Char) : Bool :=
  (splitSlash cs).any fun s => s == ['.', '.']

/-- Collects parsed header lines into the typed header map: over-long
values abort with 431, unknown names are skipped, known names are
inserted. -/
def collectHeaders :
    List (List Char × List Char) → Except ReqError (List (Header × List Char))
  | [] => .ok []
  | (name, value) :: rest =>
    if value.length > 4 * 1024 then
      .error (.validation .requestHeaderFieldsTooLarge)
    else
      match Header.fromStr name with
      | none => collectHeaders rest
      | some h =>
        (collectHeaders rest).map fun hs => hInsert hs h value

/-- Embedding of `Request::from_bytes`: size limit, parse, method lookup,
request-target length limit, leading-slash check, parent-directory
traversal check (quick `".."` substring test first), then header
collection. -/
def fromBytes (input : List Char) : Except ReqError Request :=
  if input.length > 8 * 1024 * 1024 then
    .error (.validation .payloadTooLarge)
  else
    match parseHttp input with
    | none => .error .parser
    | some (m, target, lines, body) =>
      match Method.fromStr m with
      | none => .error .component
      | some method =>
        if target.length > 2 * 1024 then
          .error (.validation .uriTooLong)
        else if ¬ (['/'].isPrefixOf (uriFrom target).path) then
          .error (.validation .badRequest)
        else if containsDotDot (uriFrom target).path
            && hasParentDir (uriFrom target).path then
          .error (.validation .badRequest)
        else
          match collectHeaders lines with
          | .error e => .error e
          | .ok headers =>
            .ok { method := method, uri := uriFrom target,
                  headers := headers, body := body }

theorem splitSlash_ne_nil (cs : List Char) : splitSlash cs ≠ [] := by
  cases cs with
  | nil => simp [splitSlash]
  | cons c t =>
    simp only [splitSlash]
    split
    · simp
    · split <;> simp

theorem splitSlash_head_pre (cs : List Char) :
    ∀ s ss, splitSlash cs = s :: ss → s <+: cs := by
  induction cs with
  | nil =>
    intro s ss h
    simp only [splitSlash, List.cons.injEq] at h
    obtain ⟨rfl, rfl⟩ := h
    exact List.nil_prefix
  | cons c t ih =>
    intro s ss h
    unfold splitSlash at h
    by_cases hc : c = '/'
    · rw [if_pos hc] at h
      injection h with h1 h2
      rw [← h1]
      exact List.nil_prefix
    · rw [if_neg hc] at h
      cases hsp : splitSlash t with
      | nil => exact absurd hsp (splitSlash_ne_nil t)
      | cons s0 ss0 =>
        rw [hsp] at h
        injection h with h1 h2
        obtain ⟨u, hu⟩ := ih s0 ss0 hsp
        exact ⟨u, by rw [← h1]; simp [hu]⟩

theorem mem_splitSlash_isInfix (cs : List Char) (s : List Char)
    (h : s ∈ splitSlash cs) : s <:+: cs := by
  induction cs with
  | nil =>
    simp only [splitSlash, List.mem_singleton] at h
    rw [h]
  | cons c t ih =>
    unfold splitSlash at h
    by_cases hc : c = '/'
    · rw [if_pos hc] at h
      rcases List.mem_cons.mp h with h1 | h2
      · rw [h1]
        exact List.nil_infix
      · exact List.infix_cons (ih h2)
    · rw [if_neg hc] at h
      cases hsp : splitSlash t with
      | nil => exact absurd hsp (splitSlash_ne_nil t)
      | cons s0 ss0 =>
        rw [hsp] at h
        rcases List.mem_cons.mp h with h1 | h2
        · obtain ⟨u, hu⟩ := splitSlash_head_pre t s0 ss0 hsp
          refine ⟨[], u, ?_⟩
          rw [h1]
          simp [hu]
        · have hmem : s ∈ splitSlash t := by
            rw [hsp]; exact List.mem_cons_of_mem _ h2
          exact List.infix_cons (ih hmem)

/-- A parent-directory component is itself the substring `".."`, so the
quick substring test of `from_bytes` never lets a traversal slip past. -/
theorem hasParentDir_containsDotDot (cs : List Char)
    (h : hasParentDir cs = true) : containsDotDot cs = true := by
  unfold hasParentDir at h
  rw [List.any_eq_true] at h
  obtain ⟨s, hs, heq⟩ := h
  have hseq : s = ['.', '.'] := by simpa using heq
  rw [hseq] at hs
  unfold containsDotDot
  exact decide_eq_true (mem_splitSlash_isInfix cs _ hs)

/-- C1: `Request::from_bytes` never returns a request whose percent-decoded
path contains a parent-directory (`".."`) component; the concrete traversal
attempt `GET /a/../b` is rejected with `Validation(BadRequest)`, while
`GET /a/./b`, whose path has only a current-directory component, parses to
a request with the path unchanged. -/
theorem fromBytes_rejects_parent_dir :
    (∀ input req, fromBytes input = .ok req →
      hasParentDir req.uri.path = false) ∧
    fromBytes (("GET /a/../b HTTP/1.1\r\n\r\n").data)
      = .error (.validation .badRequest) ∧
    fromBytes (("GET /a/./b HTTP/1.1\r\n\r\n").data)
      = .ok { method := .get,
              uri := { path := ("/a/./b").data, query := [] },
              headers := [], body := [] } := by
  refine ⟨?_, by rfl, by rfl⟩
  intro input req h
  unfold fromBytes at h
  by_cases h1 : input.length > 8 * 1024 * 1024
  · rw [if_pos h1] at h
    simp at h
  rw [if_neg h1] at h
  cases hp : parseHttp input with
  | none => rw [hp] at h; simp at h
  | some quad =>
    rw [hp] at h
    obtain ⟨m, target, lines, body⟩ := quad
    dsimp only at h
    cases hm : Method.fromStr m with
    | none => rw [hm] at h; simp at h
    | some method =>
      rw [hm] at h
      dsimp only at h
      by_cases h2 : target.length > 2 * 1024
      · rw [if_pos h2] at h
        simp at h
      rw [if_neg h2] at h
      by_cases h3 : ¬ (['/'].isPrefixOf (uriFrom target).path)
      · rw [if_pos h3] at h
        simp at h
      rw [if_neg h3] at h
      by_cases h4 : (containsDotDot (uriFrom target).path
          && hasParentDir (uriFrom target).path) = true
      · rw [if_pos h4] at h
        simp at h
      rw [if_neg h4] at h
      cases hc : collectHeaders lines with
      | error e => rw [hc] at h; simp at h
      | ok headers =>
        rw [hc] at h
        dsimp only at h
        rw [Except.ok.injEq] at h
        rw [← h]
        by_cases hpd : hasParentDir (uriFrom target).path = true
        · exact absurd (by rw [hasParentDir_containsDotDot _ hpd, hpd]; rfl) h4
        · simpa using hpd

/-- Witness for the universal part of C1: instantiating it at the accepted
request `GET /a/./b` (using the concrete parse equation of the theorem
itself) shows its path has no parent-directory component. -/
theorem fromBytes_rejects_parent_dir_witness :
    hasParentDir
      ({ method := .get, uri := { path := ("/a/./b").data, query := [] },
         headers := [], body := [] } : Request).uri.path = false :=
  fromBytes_rejects_parent_dir.1 (("GET /a/./b HTTP/1.1\r\n\r\n").data) _
    fromBytes_rejects_parent_dir.2.2

/-! ## BasePath middleware (`middleware/path/base.rs`) -/

/-- Embedding of Rust `str::trim_start_matches`: strips the pattern from the
front as long as it matches (an empty pattern strips nothing).  The fuel is
the input length, enough for every round since a non-empty pattern consumes
at least one character. -/
def trimStartF : Nat → List Char → List Char → List Char
  | 0, _, s => s
  | fuel + 1, pat, s =>
    if pat ≠ [] ∧ pat.isPrefixOf s then
      trimStartF fuel pat (s.drop pat.length)
    else
      s

/-- Repeatedly strip a leading pattern (`trim_start_matches`). -/
def trimStartMatches (pat s : List Char) : List Char :=
  trimStartF (s.length + 1) pat s

/-- Embedding of `BasePath::process`: pass through when the base is `/`,
redirect the root to the base, strip the leading base prefix otherwise,
and forward. -/
def basePathProcess (base : List Char) (req : Request) (next : Handler) :
    Response :=
  if base = ['/'] then next req
  else if req.uri.path = ['/'] then Response.redirect base
  else if base.isPrefixOf req.uri.path then
    next { req with
           uri := { path := trimStartMatches base req.uri.path,
                    query := req.uri.query } }
  else next req

theorem trimStartF_nil (fuel : Nat) (pat : List Char) (h : pat ≠ []) :
    trimStartF fuel pat [] = [] := by
  cases fuel with
  | zero => rfl
  | succ n =>
    unfold trimStartF
    rw [if_neg]
    intro hcon
    cases pat with
    | nil => exact h rfl
    | cons c t => simp [List.isPrefixOf] at hcon

/-- What repeated stripping computes: the input is the pattern repeated
some number of times followed by the result, and the result no longer
starts with the pattern. -/
theorem trimStartF_spec (fuel : Nat) (pat : List Char) (hpat : pat ≠ []) :
    ∀ s : List Char, s.length < fuel →
      (∃ k, s = (List.replicate k pat).flatten ++ trimStartF fuel pat s) ∧
        ¬ pat.isPrefixOf (trimStartF fuel pat s) = true := by
  induction fuel with
  | zero => intro s hs; omega
  | succ n ih =>
    intro s hs
    unfold trimStartF
    by_cases hpre : pat.isPrefixOf s = true
    · rw [if_pos ⟨hpat, hpre⟩]
      have hpre' : pat <+: s := List.isPrefixOf_iff_prefix.mp hpre
      obtain ⟨tail, htail⟩ := hpre'
      have hlen : pat.length ≥ 1 := by
        cases pat with
        | nil => exact absurd rfl hpat
        | cons c t => simp
      have hdrop : s.drop pat.length = tail := by
        rw [← htail, List.drop_left]
      have hslen : s.length = pat.length + tail.length := by
        rw [← htail, List.length_append]
      have htlen : tail.length < n := by omega
      obtain ⟨⟨k, hk⟩, hnp⟩ := ih tail htlen
      rw [hdrop]
      refine ⟨⟨k + 1, ?_⟩, hnp⟩
      rw [List.replicate_succ, List.flatten_cons, List.append_assoc, ← hk,
        htail]
    · rw [if_neg fun hcon => hpre hcon.2]
      exact ⟨⟨0, by simp⟩, hpre⟩

/-- C4, amended: the behaviour of `BasePath(base)`: with base `/` every
request passes through; the root path gets a 302 to the base; a path that
begins with the base is forwarded with **every** leading occurrence of the
base stripped (`trim_start_matches` strips repeatedly, not once), query
preserved; other paths are forwarded unchanged. -/
theorem basePathProcess_cases (base : List Char) (req : Request)
    (next : Handler) :
    (base = ['/'] → basePathProcess base req next = next req) ∧
    (base ≠ ['/'] → req.uri.path = ['/'] →
      basePathProcess base req next = Response.redirect base) ∧
    (base ≠ ['/'] → base ≠ [] → req.uri.path ≠ ['/'] →
      base.isPrefixOf req.uri.path = true →
      basePathProcess base req next
          = next { req with
                   uri := { path := trimStartMatches base req.uri.path,
                            query := req.uri.query } } ∧
        (∃ k, req.uri.path
            = (List.replicate k base).flatten
                ++ trimStartMatches base req.uri.path) ∧
        ¬ base.isPrefixOf (trimStartMatches base req.uri.path) = true) ∧
    (base ≠ ['/'] → req.uri.path ≠ ['/'] →
      ¬ base.isPrefixOf req.uri.path = true →
      basePathProcess base req next = next req) := by
  refine ⟨?_, ?_, ?_, ?_⟩
  · intro h
    unfold basePathProcess
    rw [if_pos h]
  · intro h1 h2
    unfold basePathProcess
    rw [if_neg h1, if_pos h2]
  · intro h1 h2 h3 h4
    have hspec := trimStartF_spec (req.uri.path.length + 1) base h2
      req.uri.path (by omega)
    refine ⟨?_, hspec.1, hspec.2⟩
    unfold basePathProcess
    rw [if_neg h1, if_neg h3, if_pos h4]
  · intro h1 h2 h3
    unfold basePathProcess
    rw [if_neg h1, if_neg h2, if_neg h3]

/-- Probe handler that reflects the forwarded path into the response body,
separating requests that differ only in their path. -/
def probeNext : Handler :=
  fun r => { status := .ok, headers := [], body := r.uri.path.map Char.toNat }

/-- C4, counterexample: for base `/app` and path `/app/app/x`, stripping
exactly one leading occurrence would forward the path `/app/x`, but
`trim_start_matches` strips both occurrences and the downstream handler
sees `/x`. -/
theorem basePathProcess_not_single_strip :
    basePathProcess (("/app").data)
        { method := .get,
          uri := { path := ("/app/app/x").data, query := [] },
          headers := [], body := [] } probeNext
      ≠ probeNext
        { method := .get,
          uri := { path := ("/app/x").data, query := [] },
          headers := [], body := [] } := by
  decide

/-- Witness for the amended C4 at base `/app` and path `/app/app/x`: the
request is forwarded with path `/x`. -/
theorem basePathProcess_cases_witness :
    basePathProcess (("/app").data)
        { method := .get,
          uri := { path := ("/app/app/x").data, query := [] },
          headers := [], body := [] } probeNext
      = probeNext
        { method := .get,
          uri := { path := ("/x").data, query := [] },
          headers := [], body := [] } := by
  have h := (basePathProcess_cases (("/app").data)
      { method := .get,
        uri := { path := ("/app/app/x").data, query := [] },
        headers := [], body := [] } probeNext).2.2.1
    (by decide) (by decide) (by decide) (by decide)
  exact h.1.trans (by decide)

/-- C10: with a base other than `/`, a request whose path equals the base
exactly is forwarded to the next handler with the empty path `""` — not
`"/"` — and no redirect is issued. -/
theorem basePathProcess_path_eq_base (base : List Char) (req : Request)
    (next : Handler) (hbase : base ≠ ['/']) (hne : base ≠ [])
    (hpath : req.uri.path = base) :
    basePathProcess base req next
      = next { req with uri := { path := [], query := req.uri.query } } := by
  unfold basePathProcess
  rw [if_neg hbase, if_neg (by rw [hpath]; exact hbase),
    if_pos (by rw [hpath]; rw [List.isPrefixOf_iff_prefix])]
  have htrim : trimStartMatches base req.uri.path = [] := by
    rw [hpath]
    unfold trimStartMatches trimStartF
    rw [if_pos ⟨hne, by rw [List.isPrefixOf_iff_prefix]⟩, List.drop_length]
    exact trimStartF_nil base.length base hne
  rw [htrim]

/-- Constant handler used to instantiate C10's witness. -/
def constNext : Handler :=
  fun _ => Response.new

/-- Witness for C10 at base `/app` and path `/app`. -/
theorem basePathProcess_path_eq_base_witness :
    basePathProcess (("/app").data)
        { method := .get, uri := { path := ("/app").data, query := [] },
          headers := [], body := [] } constNext
      = constNext
        { method := .get, uri := { path := [], query := [] },
          headers := [], body := [] } :=
  basePathProcess_path_eq_base (("/app").data)
    { method := .get, uri := { path := ("/app").data, query := [] },
      headers := [], body := [] } constNext
    (by decide) (by decide) (by decide)

/-! ## WebSocket handshake middleware (`middleware/websocket.rs`)

The middleware depends on the external `sha1_smol` and `base64` crates;
both implement fixed standards (RFC 3174 SHA-1, RFC 4648 base64), embedded
here from those specifications over byte lists.
-/

/-- Left-rotation of a 32-bit word. -/
def rotl32 (n x : Nat) : Nat :=
  (x * 2 ^ n + x / 2 ^ (32 - n)) % 2 ^ 32

/-- Big-endian 32-bit word from four bytes. -/
def word32 (a b c d : Nat) : Nat :=
  ((a * 256 + b) * 256 + c) * 256 + d

/-- Big-endian words of a byte list (length a multiple of 4). -/
def toWords : List Nat → List Nat
  | a :: b :: c :: d :: rest => word32 a b c d :: toWords rest
  | _ => []

/-- Big-endian bytes of a 32-bit word. -/
def be32 (n : Nat) : List Nat :=
  [n / 2 ^ 24 % 256, n / 2 ^ 16 % 256, n / 2 ^ 8 % 256, n % 256]

/-- Big-endian bytes of a 64-bit length. -/
def be64 (n : Nat) : List Nat :=
  [n / 2 ^ 56 % 256, n / 2 ^ 48 % 256, n / 2 ^ 40 % 256, n / 2 ^ 32 % 256,
   n / 2 ^ 24 % 256, n / 2 ^ 16 % 256, n / 2 ^ 8 % 256, n % 256]

/-- SHA-1 round function. -/
def sha1F (t b c d : Nat) : Nat :=
  if t < 20 then (b &&& c) ||| ((b ^^^ 0xffffffff) &&& d)
  else if t < 40 then b ^^^ c ^^^ d
  else if t < 60 then (b &&& c) ||| (b &&& d) ||| (c &&& d)
  else b ^^^ c ^^^ d

/-- SHA-1 round constants. -/
def sha1K (t : Nat) : Nat :=
  if t < 20 then 0x5a827999
  else if t < 40 then 0x6ed9eba1
  else if t < 60 then 0x8f1bbcdc
  else 0xca62c1d6

/-- Extends the 16 message words to the 80-word schedule. -/
def sha1Sched : Nat → List Nat → List Nat
  | 0, ws => ws
  | fuel + 1, ws =>
    let w := rotl32 1
      ((ws.getD (ws.length - 3) 0) ^^^ (ws.getD (ws.length - 8) 0) ^^^
        (ws.getD (ws.length - 14) 0) ^^^ (ws.getD (ws.length - 16) 0))
    sha1Sched fuel (ws ++ [w])

/-- SHA-1 compression of one 64-byte block into the running state. -/
def sha1Compress (st : Nat × Nat × Nat × Nat × Nat) (block : List Nat) :
    Nat × Nat × Nat × Nat × Nat :=
  let ws := sha1Sched 64 (toWords block)
  let (h0, h1, h2, h3, h4) := st
  let fin := ws.enum.foldl
    (fun (acc : Nat × Nat × Nat × Nat × Nat) (p : Nat × Nat) =>
      let (a, b, c, d, e) := acc
      let (t, w) := p
      let temp := (rotl32 5 a + sha1F t b c d + e + sha1K t + w) % 2 ^ 32
      (temp, a, rotl32 30 b, c, d))
    (h0, h1, h2, h3, h4)
  ((h0 + fin.1) % 2 ^ 32, (h1 + fin.2.1) % 2 ^ 32, (h2 + fin.2.2.1) % 2 ^ 32,
   (h3 + fin.2.2.2.1) % 2 ^ 32, (h4 + fin.2.2.2.2) % 2 ^ 32)

/-- Merkle–Damgård padding: `0x80`, zeros to 56 mod 64, 64-bit bit length. -/
def sha1Pad (msg : List Nat) : List Nat :=
  msg ++ [0x80] ++ List.replicate ((119 - msg.length % 64) % 64) 0 ++
    be64 (msg.length * 8)

/-- Splits a byte list into 64-byte blocks (fuel bounds the recursion). -/
def chunks64 : Nat → List Nat → List (List Nat)
  | 0, _ => []
  | _ + 1, [] => []
  | fuel + 1, l => l.take 64 :: chunks64 fuel (l.drop 64)

/-- SHA-1 digest (20 bytes) of a byte list. -/
def sha1 (msg : List Nat) : List Nat :=
  let padded := sha1Pad msg
  let st := (chunks64 padded.length padded).foldl sha1Compress
    (0x67452301, 0xefcdab89, 0x98badcfe, 0x10325476, 0xc3d2e1f0)
  be32 st.1 ++ be32 st.2.1 ++ be32 st.2.2.1 ++ be32 st.2.2.2.1 ++
    be32 st.2.2.2.2

/-- Standard base64 alphabet. -/
def base64Alphabet : List Char :=
  ("ABCDEFGHIJKLMNOPQRSTUVWXYZabcdefghijklmnopqrstuvwxyz0123456789+/").data

/-- Character of a 6-bit group. -/
def b64c (n : Nat) : Char :=
  base64Alphabet.getD n 'A'

/-- Standard base64 with `=` padding (`BASE64_STANDARD.encode`). -/
def base64Encode : List Nat → List Char
  | [] => []
  | [a] => [b64c (a / 4), b64c (a % 4 * 16), '=', '=']
  | [a, b] => [b64c (a / 4), b64c (a % 4 * 16 + b / 16), b64c (b % 16 * 4), '=']
  | a :: b :: c :: rest =>
    b64c (a / 4) :: b64c (a % 4 * 16 + b / 16) :: b64c (b % 16 * 4 + c / 64) ::
      b64c (c % 64) :: base64Encode rest

/-- RFC 6455 GUID appended to the client key, as bytes. -/
def wsGuid : List Nat :=
  ("258EAFA5-E914-47DA-95CA-C5AB0DC85B11").data.map Char.toNat

/-- Embedding of `generate_accept_key`: base64 of the SHA-1 of the client
key concatenated with the RFC 6455 GUID. -/
def generateAcceptKey (key : List Char) : List Char :=
  base64Encode (sha1 (key.map Char.toNat ++ wsGuid))

/-- ASCII case-insensitive string comparison (`eq_ignore_ascii_case`). -/
def eqIgnoreCase (a b : List Char) : Bool :=
  a.map Char.toLower == b.map Char.toLower

/-- Splits a character list at every occurrence of a separator. -/
def splitCh (sep : Char) : List Char → List (List Char)
  | [] => [[]]
  | c :: t =>
    if c = sep then [] :: splitCh sep t
    else
      match splitCh sep t with
      | [] => [[c]]
      | s :: ss => (c :: s) :: ss

/-- Embedding of `WebSocketHandshake::process`: forward when not a
WebSocket upgrade; otherwise enforce method GET, a `Connection` header
containing the `upgrade` token, version 13 and a present key; on success
answer 101 with the accept key. -/
def wsProcess (req : Request) (next : Handler) : Response :=
  match hGet req.headers .upgrade with
  | none => next req
  | some upgrade =>
    if ¬ eqIgnoreCase upgrade (("websocket").data) then next req
    else if req.method ≠ .get then
      (Response.fromStatus .methodNotAllowed).header .allow (("GET").data)
    else
      match hGet req.headers .connection with
      | none => Response.fromStatus .badRequest
      | some connection =>
        if ¬ ((splitCh ',' connection).any fun v =>
            eqIgnoreCase (trimValue v) (("upgrade").data)) then
          Response.fromStatus .badRequest
        else if hGet req.headers .secWebSocketVersion ≠ some (("13").data) then
          ((Response.fromStatus .upgradeRequired).header .upgrade
              (("websocket").data)).header .secWebSocketVersion (("13").data)
        else
          match hGet req.headers .secWebSocketKey with
          | none => Response.fromStatus .badRequest
          | some key =>
            ((((Response.new.withStatus .switchingProtocols).header .upgrade
                (("websocket").data)).header .connection
                  (("Upgrade").data)).header .secWebSocketAccept
              (generateAcceptKey key))

/-- The RFC 6455 sample handshake request. -/
def wsSampleReq : Request :=
  { method := .get,
    uri := { path := ['/'], query := [] },
    headers := [(.connection, ("Upgrade").data),
                (.upgrade, ("websocket").data),
                (.secWebSocketVersion, ("13").data),
                (.secWebSocketKey, ("dGhlIHNhbXBsZSBub25jZQ==").data)],
    body := [] }

/-- C8: the sample GET upgrade request (Connection: Upgrade, Upgrade:
websocket, version 13, sample nonce key) yields a 101 Switching Protocols
response with `Upgrade: websocket`, `Connection: Upgrade`, and the accept
key `base64(SHA1(key ∥ GUID))`, which for this key is
`s3pPLMBiTxaQ9kYGzzhZRbK+xOo=`. -/
theorem wsProcess_sample_handshake :
    (∀ next : Handler,
      wsProcess wsSampleReq next
        = { status := .switchingProtocols,
            headers := [(.upgrade, ("websocket").data),
                        (.connection, ("Upgrade").data),
                        (.secWebSocketAccept,
                          ("s3pPLMBiTxaQ9kYGzzhZRbK+xOo=").data)],
            body := [] }) ∧
    ("s3pPLMBiTxaQ9kYGzzhZRbK+xOo=").data
      = base64Encode (sha1
          ((("dGhlIHNhbXBsZSBub25jZQ==").data.map Char.toNat) ++ wsGuid)) := by
  constructor
  · intro next
    rfl
  · rfl

/-! ## StaticFiles middleware (`middleware/files.rs`, `response/ext.rs`)

The filesystem is passed in as a lookup from full paths to file models
(content bytes and optional modification time); clock values and HTTP
dates are abstract naturals, with the date formatter and the
`parse_http_date` parser passed in as parameters.
-/

/-- A file on disk: content bytes and the modification time, when the
filesystem reports one. -/
structure FileM where
  content : List Nat
  mtime : Option Nat
deriving DecidableEq, Repr

/-- Filesystem model: total lookup from full path strings to files. -/
def Fsys : Type :=
  List Char → Option FileM

/-- Embedding of `PathBuf::join` for a relative component. -/
def joinPath (a b : List Char) : List Char :=
  if b = [] then a else a ++ '/' :: b

/-- Last path segment of a joined path string. -/
def lastComp (p : List Char) : List Char :=
  (splitSlash p).getLastD []

/-- Embedding of `Path::extension`: the part after the last `.` of the file
name, none when there is no dot or only a leading one. -/
def extOf (name : List Char) : Option (List Char) :=
  match splitOnceL '.' name.reverse with
  | none => none
  | some (revExt, revStem) =>
    if revStem = [] then none else some revExt.reverse

/-- Extension table of `ResponseExt::from_file`. -/
def mimeOf (ext : Option (List Char)) : List Char :=
  if ext = some (("html").data) ∨ ext = some (("htm").data) then
    ("text/html; charset=utf-8").data
  else if ext = some (("css").data) then ("text/css").data
  else if ext = some (("js").data) then ("application/javascript").data
  else if ext = some (("json").data) then ("application/json").data
  else if ext = some (("png").data) then ("image/png").data
  else if ext = some (("jpg").data) ∨ ext = some (("jpeg").data) then
    ("image/jpeg").data
  else if ext = some (("gif").data) then ("image/gif").data
  else if ext = some (("svg").data) then ("image/svg+xml").data
  else if ext = some (("ico").data) then ("image/x-icon").data
  else if ext = some (("pdf").data) then ("application/pdf").data
  else if ext = some (("mp4").data) then ("video/mp4").data
  else if ext = some (("txt").data) then ("text/plain; charset=utf-8").data
  else if ext = some (("xml").data) then ("application/xml").data
  else ("application/octet-stream").data

/-- Embedding of `ResponseExt::from_file`: read the file, set Content-Type
from the extension table and Content-Length, and add `Last-Modified` when
the filesystem reports a modification time. -/
def fromFile (fs : Fsys) (fmtDate : Nat → List Char) (full : List Char) :
    Option Response :=
  match fs full with
  | none => none
  | some f =>
    let res := ((((Response.new.withStatus .ok).header .contentType
        (mimeOf (extOf (lastComp full)))).header .contentLength
          (natChars f.content.length)).withBody f.content)
    match f.mtime with
    | some m => some (res.header .lastModified (fmtDate m))
    | none => some res

/-- Embedding of `StaticFiles::fallback`: delegate to `next`; on a 404, try
`<root>/404.html` as a styled body. -/
def fallbackSF (fs : Fsys) (fmtDate : Nat → List Char) (base : List Char)
    (req : Request) (next : Handler) : Response :=
  let res := next req
  if res.status = .notFound then
    match fromFile fs fmtDate (joinPath base (("404.html").data)) with
    | some r => r
    | none => res
  else res

/-- The full path a request path resolves to: strip the leading slashes,
join with the root, and append `index.html` after a trailing slash. -/
def resolvePath (base reqPath : List Char) : List Char :=
  let full := joinPath base (reqPath.dropWhile fun c => c = '/')
  if reqPath.getLast? = some '/' then joinPath full (("index.html").data)
  else full

/-- Embedding of `StaticFiles::process`: GET/HEAD only; resolve the file;
set a `Date` header; blank the body for HEAD (keeping all headers);
otherwise evaluate `If-Modified-Since` against the modification time minus
one second and answer 304 when not newer. -/
def staticProcess (fs : Fsys) (parseDate : List Char → Option Nat)
    (fmtDate : Nat → List Char) (now : Nat) (base : List Char)
    (req : Request) (next : Handler) : Response :=
  if ¬ (req.method = .get ∨ req.method = .head) then
    fallbackSF fs fmtDate base req next
  else
    match fromFile fs fmtDate (resolvePath base req.uri.path) with
    | none => fallbackSF fs fmtDate base req next
    | some res0 =>
      let res := res0.header .date (fmtDate now)
      if req.method = .head then res.withBody []
      else
        match hGet req.headers .ifModifiedSince with
        | none => res
        | some v =>
          match parseDate v with
          | none => res
          | some date =>
            match fs (resolvePath base req.uri.path) with
            | none => res
            | some f =>
              match f.mtime with
              | none => res
              | some m =>
                if date ≥ m - 1 then
                  (Response.new.withStatus .notModified).header
                    .contentLength (natChars 0)
                else res

/-- Removing a header from a request's header map. -/
def hRemove (hs : List (Header × List Char)) (k : Header) :
    List (Header × List Char) :=
  hs.filter fun p => ! (p.1 == k)

theorem hGet_hRemove (hs : List (Header × List Char)) (k : Header) :
    hGet (hRemove hs k) k = none := by
  induction hs with
  | nil => rfl
  | cons p t ih =>
    by_cases hp : (p.1 == k) = true
    · simp only [hRemove, List.filter_cons, hp, Bool.not_true] at ih ⊢
      exact ih
    · simpa [hRemove, List.filter_cons, hp, hGet, List.find?_cons] using ih

/-- C9: a HEAD request whose path resolves to an existing file gets a 200
with an empty body and exactly the headers of the corresponding GET file
response (Content-Type, Content-Length, Last-Modified, Date); it is never
answered 304, whatever `If-Modified-Since` header the request carries —
the conditional-GET comparison runs only for GET. -/
theorem staticProcess_head_200 (fs : Fsys) (parseDate : List Char → Option Nat)
    (fmtDate : Nat → List Char) (now : Nat) (base : List Char)
    (req : Request) (next : Handler) (file : FileM)
    (hm : req.method = .head)
    (hf : fs (resolvePath base req.uri.path) = some file) :
    (staticProcess fs parseDate fmtDate now base req next).status = .ok ∧
    (staticProcess fs parseDate fmtDate now base req next).body = [] ∧
    (staticProcess fs parseDate fmtDate now base req next).status
      ≠ .notModified ∧
    (staticProcess fs parseDate fmtDate now base req next).headers
      = (staticProcess fs parseDate fmtDate now base
          { req with method := .get,
                     headers := hRemove req.headers .ifModifiedSince }
          next).headers := by
  unfold staticProcess fromFile
  rw [hm]
  dsimp only
  rw [if_neg (by decide), if_neg (by decide), hf]
  dsimp only
  cases hmt : file.mtime with
  | none =>
    dsimp only
    rw [if_pos rfl, if_neg (by decide : ¬ Method.get = Method.head),
      hGet_hRemove]
    exact ⟨rfl, rfl, fun hcon => Status.noConfusion hcon, rfl⟩
  | some m =>
    dsimp only
    rw [if_pos rfl, if_neg (by decide : ¬ Method.get = Method.head),
      hGet_hRemove]
    exact ⟨rfl, rfl, fun hcon => Status.noConfusion hcon, rfl⟩

/-- Fixture filesystem for the C9 witness: one text file with mtime 100. -/
def wFs : Fsys := fun p =>
  if p = ("root/a.txt").data then
    some { content := [104, 105], mtime := some 100 }
  else none

/-- Fixture date parser for the C9 witness: every date reads as 200, which
is ≥ the file's mtime minus one second, so a GET would be answered 304. -/
def wParse (_ : List Char) : Option Nat :=
  some 200

/-- Fixture date formatter for the C9 witness. -/
def wFmt (n : Nat) : List Char :=
  natChars n

/-- Fixture HEAD request for the C9 witness, carrying an
`If-Modified-Since` header that would trigger 304 on a GET. -/
def wReq : Request :=
  { method := .head,
    uri := { path := ("/a.txt").data, query := [] },
    headers := [(.ifModifiedSince, ("whenever").data)],
    body := [] }

/-- Witness for C9 at the fixture filesystem and request. -/
theorem staticProcess_head_200_witness :
    (staticProcess wFs wParse wFmt 7 (("root").data) wReq constNext).status
        = .ok ∧
      (staticProcess wFs wParse wFmt 7 (("root").data) wReq constNext).body
        = [] ∧
      (staticProcess wFs wParse wFmt 7 (("root").data) wReq
          constNext).status ≠ .notModified ∧
      (staticProcess wFs wParse wFmt 7 (("root").data) wReq
          constNext).headers
        = (staticProcess wFs wParse wFmt 7 (("root").data)
            { wReq with method := .get,
                        headers := hRemove wReq.headers .ifModifiedSince }
            constNext).headers :=
  staticProcess_head_200 wFs wParse wFmt 7 (("root").data) wReq constNext
    { content := [104, 105], mtime := some 100 } rfl (by decide)

/-! ## File manager (`zensical-watch/src/agent/manager.rs`)

Paths are lists of components (`PathBuf` ordering and `starts_with` are
component-wise); `FileId`s are naturals.  The `BTreeMap`s (`paths`,
`links`, and the per-batch `changes`) become association lists sorted by
key; the `ids` `HashMap` becomes an association list (only looked up,
never iterated).  The filesystem that `handle` queries (stat, walk,
canonicalize, read_link) is an explicit structure. -/

namespace Watch

/-- A path, as its list of components. -/
abbrev WPath : Type :=
  List String

/-- File kind (`event.rs`). -/
inductive Kind where
  | file | folder | link
deriving DecidableEq, Repr

/-- File event (`event.rs`). -/
inductive Event where
  | create (kind : Kind) (path : WPath)
  | modify (kind : Kind) (path : WPath)
  | rename (kind : Kind) (src dst : WPath)
  | remove (kind : Kind) (path : WPath)
deriving DecidableEq, Repr

/-- Embedding of `Event::kind`. -/
def Event.kind : Event → Kind
  | .create k _ => k
  | .modify k _ => k
  | .rename k _ _ => k
  | .remove k _ => k

/-- Embedding of `Event::path` (the target path for renames). -/
def Event.path : Event → WPath
  | .create _ p => p
  | .modify _ p => p
  | .rename _ _ dst => dst
  | .remove _ p => p

/-- A result delivered by the manager: an event, or an error (I/O errors
are not further distinguished). -/
inductive WResult where
  | ok (e : Event)
  | err
deriving DecidableEq, Repr

/-- Manager state (`Manager`): `paths`, `links` (both sorted by key) and
`ids`. -/
structure MState where
  paths : List (WPath × Nat × Kind)
  links : List (WPath × List WPath)
  ids : List (Nat × WPath)
deriving DecidableEq, Repr

/-- Lexicographic order on the characters of a path component (the
byte-wise order of `OsStr`). -/
def charsLt : List Char → List Char → Bool
  | [], [] => false
  | [], _ :: _ => true
  | _ :: _, [] => false
  | a :: as, b :: bs =>
    if a = b then charsLt as bs else decide (a.toNat < b.toNat)

/-- Component-wise path order (`Ord` on `PathBuf`): lexicographic over
components, components compared as strings. -/
def pathLt : WPath → WPath → Bool
  | [], [] => false
  | [], _ :: _ => true
  | _ :: _, [] => false
  | a :: as, b :: bs => if a = b then pathLt as bs else charsLt a.data b.data

/-- Lookup in the `paths` map. -/
def lookupPath (m : List (WPath × Nat × Kind)) (p : WPath) :
    Option (Nat × Kind) :=
  (m.find? fun e => e.1 == p).map (·.2)

/-- Sorted insert into the `paths` map, replacing an existing key. -/
def insertPath (p : WPath) (v : Nat × Kind) :
    List (WPath × Nat × Kind) → List (WPath × Nat × Kind)
  | [] => [(p, v)]
  | e :: t =>
    if pathLt p e.1 then (p, v) :: e :: t
    else if p = e.1 then (p, v) :: t
    else e :: insertPath p v t

/-- Removal from the `paths` map. -/
def removePath (p : WPath) :
    List (WPath × Nat × Kind) → List (WPath × Nat × Kind)
  | [] => []
  | e :: t => if e.1 = p then t else e :: removePath p t

/-- Lookup in the `ids` map. -/
def idsLookup (m : List (Nat × WPath)) (id : Nat) : Option WPath :=
  (m.find? fun e => e.1 == id).map (·.2)

/-- Insert into the `ids` map, replacing an existing key in place. -/
def idsInsert (id : Nat) (p : WPath) (m : List (Nat × WPath)) :
    List (Nat × WPath) :=
  if m.any fun e => e.1 == id then
    m.map fun e => if e.1 == id then (id, p) else e
  else m ++ [(id, p)]

/-- Removal from the `ids` map. -/
def idsRemove (id : Nat) (m : List (Nat × WPath)) : List (Nat × WPath) :=
  m.filter fun e => ! (e.1 == id)

/-- Sorted insert into the per-batch `changes` map (a `BTreeMap` keyed by
`FileId`, iterated in id order by the third pass). -/
def chgInsert (id : Nat) (p : WPath) :
    List (Nat × WPath) → List (Nat × WPath)
  | [] => [(id, p)]
  | e :: t =>
    if id < e.1 then (id, p) :: e :: t
    else if id = e.1 then (id, p) :: t
    else e :: chgInsert id p t

/-- Set the value of an existing key of `changes` (the `Occupied` branch). -/
def chgSet (id : Nat) (p : WPath) (m : List (Nat × WPath)) :
    List (Nat × WPath) :=
  m.map fun e => if e.1 == id then (id, p) else e

/-- Remove a key from `changes`, returning its value when present. -/
def chgRemove (id : Nat) (m : List (Nat × WPath)) :
    Option WPath × List (Nat × WPath) :=
  (idsLookup m id, m.filter fun e => ! (e.1 == id))

/-- Filesystem model: the existing objects with identifier and kind, plus
`canonicalize` and `read_link` oracles. -/
structure WFs where
  entries : List (WPath × Nat × Kind)
  canon : WPath → Option WPath
  readLink : WPath → Option WPath

/-- Embedding of `get_file_id` (stat without following symlinks), together
with the file type: succeeds exactly for existing objects. -/
def WFs.stat (fs : WFs) (p : WPath) : Option (Nat × Kind) :=
  (fs.entries.find? fun e => e.1 == p).map (·.2)

/-- Whether a path is (or lies under) a dot-named folder at or below the
walk root, which `walk`'s `filter_entry` prunes. -/
def hiddenUnder (fs : WFs) (root p : WPath) : Bool :=
  (p.inits.filter fun q => root.length ≤ q.length).any fun q =>
    match fs.stat q with
    | some (_, .folder) =>
      match q.getLast? with
      | some name =>
        match name.data with
        | [] => false
        | c :: _ => c == '.'
      | none => false
    | _ => false

/-- Insertion into a path-sorted entry list. -/
def insEntry (e : WPath × Nat × Kind) :
    List (WPath × Nat × Kind) → List (WPath × Nat × Kind)
  | [] => [e]
  | x :: t => if pathLt e.1 x.1 then e :: x :: t else x :: insEntry e t

/-- Path-sorted permutation of an entry list. -/
def sortEntries : List (WPath × Nat × Kind) → List (WPath × Nat × Kind)
  | [] => []
  | e :: t => insEntry e (sortEntries t)

/-- Embedding of `walk`: the existing subtree of the root, hidden folders
pruned, in path order (a refinement of `WalkDir`'s parent-before-children
order; the order of siblings is not observed by the checked properties). -/
def walkFs (fs : WFs) (root : WPath) : List (WPath × Nat × Kind) :=
  sortEntries (fs.entries.filter fun e =>
    root.isPrefixOf e.1 && ! hiddenUnder fs root e.1)

/-- Embedding of `Manager::handle_modify`: folders are suppressed, files
and links yield a Modify at the path recorded under their id. -/
def handleModify (st : MState) (root : WPath) : List WResult :=
  match lookupPath st.paths root with
  | none => []
  | some (id, kind) =>
    if kind = .folder then []
    else
      match idsLookup st.ids id with
      | none => []
      | some p => [.ok (.modify kind p)]

/-- One step of `Manager::handle_create` for a walked entry: skip paths
already tracked, record a new path in `paths`/`ids` and emit a Create. -/
def createStep (acc : List WResult × MState) (e : WPath × Nat × Kind) :
    List WResult × MState :=
  if acc.2.paths.any fun x => x.1 == e.1 then acc
  else
    (acc.1 ++ [.ok (.create e.2.2 e.1)],
     { acc.2 with
       paths := insertPath e.1 (e.2.1, e.2.2) acc.2.paths,
       ids := idsInsert e.2.1 e.1 acc.2.ids })

/-- Embedding of `Manager::handle_create`: fold `createStep` over the
walked subtree. -/
def handleCreate (fs : WFs) (st : MState) (root : WPath) :
    List WResult × MState :=
  (walkFs fs root).foldl createStep ([], st)

/-- One step of `Manager::handle_rename` for a walked entry: when the
entry's id is known, migrate the previously recorded path to the new one
and emit a Rename, unless the path did not move. -/
def renameStep (acc : List WResult × MState) (e : WPath × Nat × Kind) :
    List WResult × MState :=
  match idsLookup acc.2.ids e.2.1 with
  | none => acc
  | some prev =>
    match lookupPath acc.2.paths prev with
    | none => acc
    | some (id2, kind) =>
      let paths2 := insertPath e.1 (id2, kind) (removePath prev acc.2.paths)
      if e.1 = prev then (acc.1, { acc.2 with paths := paths2 })
      else
        (acc.1 ++ [.ok (.rename kind prev e.1)],
         { acc.2 with paths := paths2,
                      ids := idsInsert e.2.1 e.1 acc.2.ids })

/-- Embedding of `Manager::handle_rename`: fold `renameStep` over the
walked subtree. -/
def handleRename (fs : WFs) (st : MState) (root : WPath) :
    List WResult × MState :=
  (walkFs fs root).foldl renameStep ([], st)

/-- One step of `Manager::handle_remove` for a collected path: remove it
from `paths`, and when its id was recorded, remove the id as well and emit
a Remove at the path the id mapped to. -/
def removeStep (acc : List WResult × MState) (p : WPath) :
    List WResult × MState :=
  match lookupPath acc.2.paths p with
  | none => acc
  | some (id, kind) =>
    let st1 := { acc.2 with paths := removePath p acc.2.paths }
    match idsLookup st1.ids id with
    | none => (acc.1, st1)
    | some path2 =>
      (acc.1 ++ [.ok (.remove kind path2)],
       { st1 with ids := idsRemove id st1.ids })

/-- Embedding of `Manager::handle_remove`: collect the recorded subtree of
the root (a contiguous range of the sorted map), then fold `removeStep`
over the collected paths in reverse order. -/
def handleRemove (st : MState) (root : WPath) : List WResult × MState :=
  let collected := ((st.paths.dropWhile fun e => pathLt e.1 root).takeWhile
    fun e => root.isPrefixOf e.1).map (·.1)
  collected.reverse.foldl removeStep ([], st)

/-- Embedding of `Manager::expand`: enumerate the recorded paths inside a
symbolic link's target and map each to an event of the same shape as the
link's own event (renames degrade to Remove/Create when one side of the
link is broken); a failing canonicalization contributes a leading error. -/
def expand (fs : WFs) (st : MState) (ev : Event) : List WResult :=
  let root := ev.path
  let brokenErr : Bool :=
    match ev with
    | .remove _ _ => false
    | _ => (fs.canon root).isNone
  let target : Option WPath :=
    (st.links.find? fun e => e.2.contains root).map (·.1)
  let pairs : List (Kind × WPath) :=
    match target with
    | none => []
    | some head =>
      ((((st.paths.dropWhile fun e => pathLt e.1 head).drop 1).takeWhile
          fun e => head.isPrefixOf e.1).map
        fun e => (e.2.2, e.1.drop head.length))
  let next := ! brokenErr
  let mapped := pairs.filterMap fun pk =>
    let path := root ++ pk.2
    match ev with
    | .create _ _ => some (WResult.ok (.create pk.1 path))
    | .modify _ _ => some (.ok (.modify pk.1 path))
    | .remove _ _ => some (.ok (.remove pk.1 path))
    | .rename _ src _ =>
      let srcTail := src ++ pk.2
      let prevOk :=
        match fs.readLink root with
        | none => false
        | some lnk => (fs.canon (src.dropLast ++ lnk)).isSome
      if prevOk && next then some (.ok (.rename pk.1 srcTail path))
      else if prevOk then some (.ok (.remove pk.1 srcTail))
      else if next then some (.ok (.create pk.1 path))
      else none
  (if brokenErr then [WResult.err] else []) ++ mapped

/-- Fan-out part of `Manager::spread`: the original event first, then one
copy per symbolic link whose target is a prefix of the event's path, with
the path rewritten through the link. -/
def spreadCore (st : MState) (ev : Event) : List WResult :=
  let root := ev.path
  let fan : List WResult :=
    match st.links.find? fun e => e.1.isPrefixOf root with
    | none => []
    | some (head, lnks) =>
      let tail := root.drop head.length
      lnks.map fun r =>
        let path := r ++ tail
        match ev with
        | .create k _ => .ok (.create k path)
        | .modify k _ => .ok (.modify k path)
        | .remove k _ => .ok (.remove k path)
        | .rename k src _ =>
          if head.isPrefixOf src then
            .ok (.rename k (r ++ src.drop head.length) path)
          else .ok (.create k path)
  WResult.ok ev :: fan

/-- Embedding of `Manager::spread`: like `spreadCore`, except that a rename
with no fanned copies (its target moved out of every recorded link target)
is spread as a removal of its source instead. -/
def spread (st : MState) (ev : Event) : List WResult :=
  match ev with
  | .rename k src _ =>
    let core := spreadCore st ev
    if core.length = 1 then
      WResult.ok ev :: (spreadCore st (.remove k src)).drop 1
    else core
  | _ => spreadCore st ev

/-- Adds a link path under a canonical target in the sorted `links` map
(`entry(target).or_default()` followed by a guarded push). -/
def linksAdd (target path : WPath) :
    List (WPath × List WPath) → List (WPath × List WPath)
  | [] => [(target, [path])]
  | e :: t =>
    if pathLt target e.1 then (target, [path]) :: e :: t
    else if target = e.1 then
      (e.1, if e.2.contains path then e.2 else e.2 ++ [path]) :: t
    else e :: linksAdd target path t

/-- Replaces the first occurrence of a path in a list of link paths. -/
def replaceElem : List WPath → WPath → WPath → List WPath
  | [], _, _ => []
  | x :: t, src, dst => if x = src then dst :: t else x :: replaceElem t src dst

/-- In the first link-target entry containing `src`, replace `src` by
`dst` (the `find_map` over `links.iter_mut()` of the rename case). -/
def replaceFirstLink :
    List (WPath × List WPath) → WPath → WPath → List (WPath × List WPath)
  | [], _, _ => []
  | e :: t, src, dst =>
    if e.2.contains src then (e.1, replaceElem e.2 src dst) :: t
    else e :: replaceFirstLink t src dst

/-- Embedding of `Manager::follow`: update the `links` map according to the
link event and expand the paths inside the link (before the update for
removals, after it otherwise); `paths` and `ids` are never touched. -/
def follow (fs : WFs) (st : MState) (ev : Event) : List WResult × MState :=
  match ev with
  | .create _ path =>
    match fs.canon path with
    | some target =>
      let st1 := { st with links := linksAdd target path st.links }
      (WResult.ok ev :: expand fs st1 ev, st1)
    | none => (WResult.err :: expand fs st ev, st)
  | .modify _ _ => ([], st)
  | .rename _ src path =>
    if st.links.any fun e => e.2.contains src then
      let st1 := { st with links := replaceFirstLink st.links src path }
      (WResult.ok ev :: expand fs st1 ev, st1)
    else
      match fs.canon path with
      | some target =>
        let st1 := { st with links := linksAdd target path st.links }
        (WResult.ok ev :: expand fs st1 ev, st1)
      | none => (WResult.err :: expand fs st ev, st)
  | .remove _ path =>
    let ex := (expand fs st ev).reverse
    let links1 := (st.links.map fun e =>
      (e.1, e.2.filter fun q => ! (q == path))).filter fun e =>
        ! e.2.isEmpty
    (ex ++ [WResult.ok ev], { st with links := links1 })

/-- Keeps the first occurrence of every path (`once.insert` in the first
pass). -/
def dedupKeepFirst : List WPath → List WPath
  | [] => []
  | p :: t =>
    p :: (dedupKeepFirst t).filter fun q => ! (q == p)

/-- First pass of `Manager::handle`: split the deduplicated batch into the
paths that no longer exist (kept in order) and the `changes` map from file
id to existing path, resolving id collisions through canonicalization. -/
def pass1 (fs : WFs) : List WPath → List (Nat × WPath) →
    List WPath × List (Nat × WPath)
  | [], changes => ([], changes)
  | p :: rest, changes =>
    match fs.stat p with
    | none =>
      let pr := pass1 fs rest changes
      (p :: pr.1, pr.2)
    | some (id, _) =>
      let changes1 :=
        match idsLookup changes id with
        | none => chgInsert id p changes
        | some prev =>
          match fs.canon p with
          | some cp => if prev ≠ cp then chgSet id p changes else changes
          | none => changes
      pass1 fs rest changes1

/-- Second pass of `Manager::handle`: coalesce a vanished path whose id
reappears in `changes` into a rename, keeping the other vanished paths. -/
def pass2 (fs : WFs) :
    List WPath → MState → List (Nat × WPath) → List WResult →
      List WPath × MState × List (Nat × WPath) × List WResult
  | [], st, changes, rs => ([], st, changes, rs)
  | p :: rest, st, changes, rs =>
    match lookupPath st.paths p with
    | some (id, _) =>
      match chgRemove id changes with
      | (some target, changes1) =>
        let rn := handleRename fs st target
        pass2 fs rest rn.2 changes1 (rs ++ rn.1)
      | (none, _) =>
        let pr := pass2 fs rest st changes rs
        (p :: pr.1, pr.2.1, pr.2.2.1, pr.2.2.2)
    | none =>
      let pr := pass2 fs rest st changes rs
      (p :: pr.1, pr.2.1, pr.2.2.1, pr.2.2.2)

/-- Third pass of `Manager::handle`: surviving `changes` (in id order) are
modifications when tracked, creations otherwise. -/
def pass3 (fs : WFs) : List (Nat × WPath) → MState → List WResult →
    MState × List WResult
  | [], st, rs => (st, rs)
  | (_, p) :: rest, st, rs =>
    if st.paths.any fun e => e.1 == p then
      pass3 fs rest st (rs ++ handleModify st p)
    else
      let cr := handleCreate fs st p
      pass3 fs rest cr.2 (rs ++ cr.1)

/-- Fourth pass of `Manager::handle`: remaining vanished paths that are
tracked are removals. -/
def pass4 : List WPath → MState → List WResult → MState × List WResult
  | [], st, rs => (st, rs)
  | p :: rest, st, rs =>
    if st.paths.any fun e => e.1 == p then
      let rm := handleRemove st p
      pass4 rest rm.2 (rs ++ rm.1)
    else
      pass4 rest st rs

/-- Replaces the element at an index with a list of results (`splice`). -/
def spliceAt (rs : List WResult) (i : Nat) (ins : List WResult) :
    List WResult :=
  rs.take i ++ ins ++ rs.drop (i + 1)

/-- Applies recorded `(index, insert)` pairs in reverse order. -/
def spliceAll (rs : List WResult) :
    List (Nat × List WResult) → List WResult
  | [] => rs
  | inserts => (inserts.reverse).foldl
      (fun acc pr => spliceAt acc pr.1 pr.2) rs

/-- Spread phase of `Manager::handle`: when links are tracked, fan every
non-link event out through the links and splice the copies in place. -/
def spreadPhase (st : MState) (rs : List WResult) : List WResult :=
  if st.links.isEmpty then rs
  else
    let inserts := (rs.enum.filterMap fun pr =>
      match pr.2 with
      | WResult.ok ev =>
        if ev.kind ≠ Kind.link then some (pr.1, spread st ev) else none
      | WResult.err => none)
    spliceAll rs inserts

/-- Follow phase of `Manager::handle`: follow every link event in index
order, threading the state, then splice the produced results in place. -/
def followPhase (fs : WFs) (st : MState) (rs : List WResult) :
    List WResult × MState :=
  let step := rs.enum.foldl
    (fun (acc : List (Nat × List WResult) × MState) pr =>
      match pr.2 with
      | WResult.ok ev =>
        if ev.kind = Kind.link then
          let fl := follow fs acc.2 ev
          (acc.1 ++ [(pr.1, fl.1)], fl.2)
        else acc
      | WResult.err => acc)
    ([], st)
  (spliceAll rs step.1, step.2)

/-- Embedding of `Manager::handle`: dedupe and identify, coalesce renames,
classify creations/modifications, classify removals, then spread events
through links and follow link events. -/
def handle (fs : WFs) (batch : List WPath) (st : MState) :
    List WResult × MState :=
  let p1 := pass1 fs (dedupKeepFirst batch) []
  let p2 := pass2 fs p1.1 st p1.2 []
  let removals := p2.1
  let p3 := pass3 fs p2.2.2.1 p2.2.1 p2.2.2.2
  let p4 := pass4 removals p3.1 p3.2
  let rs := spreadPhase p4.1 p4.2
  followPhase fs p4.1 rs

theorem pathLt_irrefl (p : WPath) : pathLt p p = false := by
  induction p with
  | nil => rfl
  | cons a as ih =>
    unfold pathLt
    rw [if_pos rfl]
    exact ih

theorem lookupPath_nil (q : WPath) : lookupPath [] q = none :=
  rfl

/-- One step of `paths` lookup. -/
theorem lookupPath_cons (e : WPath × Nat × Kind)
    (t : List (WPath × Nat × Kind)) (q : WPath) :
    lookupPath (e :: t) q = if e.1 = q then some e.2 else lookupPath t q := by
  by_cases h : e.1 = q
  · have hb : (e.1 == q) = true := by simpa using h
    simp [lookupPath, List.find?_cons, hb, h]
  · have hb : (e.1 == q) = false := by simpa using h
    simp [lookupPath, List.find?_cons, hb, h]

theorem idsLookup_nil (id : Nat) : idsLookup [] id = none :=
  rfl

/-- One step of `ids` lookup. -/
theorem idsLookup_cons (e : Nat × WPath) (t : List (Nat × WPath)) (id : Nat) :
    idsLookup (e :: t) id = if e.1 = id then some e.2 else idsLookup t id := by
  by_cases h : e.1 = id
  · have hb : (e.1 == id) = true := by simpa using h
    simp [idsLookup, List.find?_cons, hb, h]
  · have hb : (e.1 == id) = false := by simpa using h
    simp [idsLookup, List.find?_cons, hb, h]

/-- Lookup misses exactly when no entry carries the key. -/
theorem lookupPath_eq_none (m : List (WPath × Nat × Kind)) (p : WPath)
    (h : ∀ e ∈ m, e.1 ≠ p) : lookupPath m p = none := by
  induction m with
  | nil => rfl
  | cons e t ih =>
    rw [lookupPath_cons, if_neg (h e (by simp))]
    exact ih fun x hx => h x (by simp [hx])

/-- Lookup after a sorted insert: the inserted key reads the new value,
every other key is unaffected. -/
theorem lookupPath_insertPath (m : List (WPath × Nat × Kind)) (p : WPath)
    (v : Nat × Kind) (q : WPath) :
    lookupPath (insertPath p v m) q
      = if q = p then some v else lookupPath m q := by
  induction m with
  | nil =>
    by_cases h : q = p
    · simp [insertPath, lookupPath_cons, h]
    · have h2 : ¬ p = q := fun hc => h hc.symm
      simp [insertPath, lookupPath_cons, h, h2]
  | cons e t ih =>
    unfold insertPath
    by_cases h1 : pathLt p e.1 = true
    · rw [if_pos h1]
      by_cases h : q = p
      · simp [lookupPath_cons, h]
      · have h2 : ¬ p = q := fun hc => h hc.symm
        simp [lookupPath_cons, h, h2]
    · rw [if_neg h1]
      by_cases h2 : p = e.1
      · rw [if_pos h2]
        by_cases h : q = p
        · simp [lookupPath_cons, h]
        · have h3 : ¬ p = q := fun hc => h hc.symm
          have h4 : ¬ e.1 = q := by
            rw [← h2]
            exact h3
          simp [lookupPath_cons, h, h3, h4]
      · rw [if_neg h2]
        by_cases h : e.1 = q
        · have hqp : ¬ q = p := by
            rw [← h]
            exact fun hc => h2 hc.symm
          simp [lookupPath_cons, h, hqp]
        · simp [lookupPath_cons, h, ih]

/-- Lookup after removal, at a different key. -/
theorem lookupPath_removePath_ne (m : List (WPath × Nat × Kind))
    (p q : WPath) (h : q ≠ p) :
    lookupPath (removePath p m) q = lookupPath m q := by
  induction m with
  | nil => rfl
  | cons e t ih =>
    unfold removePath
    by_cases h1 : e.1 = p
    · rw [if_pos h1]
      have : ¬ e.1 = q := by
        rw [h1]
        exact fun hc => h hc.symm
      simp [lookupPath_cons, this]
    · rw [if_neg h1]
      simp [lookupPath_cons, ih]

/-- Keys of the `paths` map are pairwise distinct when it is sorted. -/
def pathsNodup (m : List (WPath × Nat × Kind)) : Prop :=
  (m.map (·.1)).Nodup

/-- Lookup after removal at the removed key, under distinct keys. -/
theorem lookupPath_removePath_self (m : List (WPath × Nat × Kind))
    (p : WPath) (hnd : pathsNodup m) :
    lookupPath (removePath p m) p = none := by
  induction m with
  | nil => rfl
  | cons e t ih =>
    unfold pathsNodup at hnd
    simp only [List.map_cons, List.nodup_cons] at hnd
    unfold removePath
    by_cases h1 : e.1 = p
    · rw [if_pos h1]
      apply lookupPath_eq_none
      intro x hx hc
      exact hnd.1 (by rw [h1, ← hc]; exact List.mem_map_of_mem _ hx)
    · rw [if_neg h1]
      rw [lookupPath_cons, if_neg h1]
      exact ih hnd.2

/-- Lookup misses in the `ids` map when no entry carries the key. -/
theorem idsLookup_eq_none (m : List (Nat × WPath)) (id : Nat)
    (h : ∀ e ∈ m, e.1 ≠ id) : idsLookup m id = none := by
  induction m with
  | nil => rfl
  | cons e t ih =>
    rw [idsLookup_cons, if_neg (h e (by simp))]
    exact ih fun x hx => h x (by simp [hx])

theorem idsLookup_mapReplace_self (m : List (Nat × WPath)) (id : Nat)
    (p : WPath) (hany : (m.any fun e => e.1 == id) = true) :
    idsLookup (m.map fun e => if e.1 == id then (id, p) else e) id
      = some p := by
  induction m with
  | nil => simp at hany
  | cons e t ih =>
    by_cases he : (e.1 == id) = true
    · simp only [List.map_cons, he, if_true]
      rw [idsLookup_cons, if_pos rfl]
    · simp only [List.any_cons, Bool.or_eq_true] at hany
      have htail := hany.resolve_left he
      simp only [List.map_cons, eq_false_of_ne_true he, Bool.false_eq_true,
        if_false]
      rw [idsLookup_cons, if_neg (by simpa using he)]
      exact ih htail

theorem idsLookup_mapReplace_ne (m : List (Nat × WPath)) (id : Nat)
    (p : WPath) (id2 : Nat) (h2 : id2 ≠ id) :
    idsLookup (m.map fun e => if e.1 == id then (id, p) else e) id2
      = idsLookup m id2 := by
  induction m with
  | nil => rfl
  | cons e t ih =>
    by_cases he : (e.1 == id) = true
    · have heq : e.1 = id := by simpa using he
      simp only [List.map_cons, he, if_true]
      rw [idsLookup_cons, idsLookup_cons]
      have hn1 : ¬ id = id2 := fun hc => h2 hc.symm
      have hn2 : ¬ e.1 = id2 := by
        rw [heq]
        exact hn1
      rw [if_neg hn1, if_neg hn2]
      exact ih
    · simp only [List.map_cons, eq_false_of_ne_true he, Bool.false_eq_true,
        if_false]
      rw [idsLookup_cons, idsLookup_cons]
      by_cases hq : e.1 = id2
      · rw [if_pos hq, if_pos hq]
      · rw [if_neg hq, if_neg hq]
        exact ih

/-- Lookup in the `ids` map after an insert: the inserted key reads the new
value, every other key is unaffected. -/
theorem idsLookup_idsInsert (m : List (Nat × WPath)) (id : Nat) (p : WPath)
    (id2 : Nat) :
    idsLookup (idsInsert id p m) id2
      = if id2 = id then some p else idsLookup m id2 := by
  unfold idsInsert
  by_cases hany : (m.any fun e => e.1 == id) = true
  · rw [if_pos hany]
    by_cases h2 : id2 = id
    · rw [if_pos h2, h2]
      exact idsLookup_mapReplace_self m id p hany
    · rw [if_neg h2]
      exact idsLookup_mapReplace_ne m id p id2 h2
  · rw [if_neg hany]
    have hnone : idsLookup m id = none := by
      apply idsLookup_eq_none
      intro e he hc
      exact hany (List.any_eq_true.mpr ⟨e, he, by simpa using hc⟩)
    induction m with
    | nil =>
      by_cases h2 : id2 = id
      · simp [idsLookup_cons, h2]
      · have : ¬ id = id2 := fun hc => h2 hc.symm
        simp [idsLookup_cons, h2, this]
    | cons e t ih =>
      rw [List.cons_append, idsLookup_cons, idsLookup_cons]
      rw [idsLookup_cons] at hnone
      by_cases hq : e.1 = id2
      · rw [if_pos hq, if_pos hq]
        by_cases h2 : id2 = id
        · rw [h2] at hq
          rw [if_pos hq] at hnone
          exact absurd hnone (by simp)
        · rw [if_neg h2]
      · rw [if_neg hq, if_neg hq]
        have hany2 : ¬ (t.any fun e => e.1 == id) = true := by
          intro hc
          exact hany (by simp [List.any_cons, hc])
        have hnone2 : idsLookup t id = none := by
          by_cases hei : e.1 = id
          · rw [if_pos hei] at hnone
            exact absurd hnone (by simp)
          · rwa [if_neg hei] at hnone
        exact ih hany2 hnone2

/-- Lookup in the `ids` map after a removal. -/
theorem idsLookup_idsRemove (m : List (Nat × WPath)) (id id2 : Nat) :
    idsLookup (idsRemove id m) id2
      = if id2 = id then none else idsLookup m id2 := by
  induction m with
  | nil => simp [idsRemove, idsLookup_nil]
  | cons e t ih =>
    unfold idsRemove at ih ⊢
    rw [List.filter_cons]
    by_cases he : (e.1 == id) = true
    · have heq : e.1 = id := by simpa using he
      rw [he]
      simp only [Bool.not_true, Bool.false_eq_true, if_false]
      rw [ih]
      by_cases h2 : id2 = id
      · simp [h2]
      · rw [if_neg h2, if_neg h2, idsLookup_cons,
          if_neg (by rw [heq]; exact fun hc => h2 hc.symm)]
    · rw [eq_false_of_ne_true he]
      simp only [Bool.not_false, if_true]
      rw [idsLookup_cons, idsLookup_cons, ih]
      by_cases hq : e.1 = id2
      · have h2 : ¬ id2 = id := by
          rw [← hq]
          exact fun hc => (by simpa using he : e.1 ≠ id) hc
        rw [if_pos hq, if_pos hq, if_neg h2]
      · rw [if_neg hq, if_neg hq]

theorem charsLt_irrefl (l : List Char) : charsLt l l = false := by
  induction l with
  | nil => rfl
  | cons a as ih =>
    unfold charsLt
    rw [if_pos rfl]
    exact ih

/-- `charsLt` implies distinctness. -/
theorem charsLt_ne (a b : List Char) (h : charsLt a b = true) : a ≠ b := by
  intro hc
  subst hc
  rw [charsLt_irrefl] at h
  exact Bool.noConfusion h

/-- `charsLt` is transitive. -/
theorem charsLt_trans (a : List Char) : ∀ b c : List Char,
    charsLt a b = true → charsLt b c = true → charsLt a c = true := by
  induction a with
  | nil =>
    intro b c h1 h2
    cases b with
    | nil => simp [charsLt] at h1
    | cons y bs =>
      cases c with
      | nil => simp [charsLt] at h2
      | cons z cs => rfl
  | cons x as ih =>
    intro b c h1 h2
    cases b with
    | nil => simp [charsLt] at h1
    | cons y bs =>
      cases c with
      | nil => simp [charsLt] at h2
      | cons z cs =>
        unfold charsLt at h1 h2 ⊢
        by_cases hxy : x = y
        · rw [if_pos hxy] at h1
          by_cases hyz : y = z
          · rw [if_pos hyz] at h2
            rw [if_pos (hxy.trans hyz)]
            exact ih bs cs h1 h2
          · rw [if_neg hyz] at h2
            have hxz : x.toNat < z.toNat := by
              rw [hxy]
              exact of_decide_eq_true h2
            have hne : x ≠ z := by
              intro hc
              rw [hc] at hxz
              exact Nat.lt_irrefl _ hxz
            rw [if_neg hne]
            exact decide_eq_true hxz
        · rw [if_neg hxy] at h1
          have hlt1 : x.toNat < y.toNat := of_decide_eq_true h1
          by_cases hyz : y = z
          · have hxz : x.toNat < z.toNat := by
              rw [← hyz]
              exact hlt1
            have hne : x ≠ z := by
              intro hc
              rw [hc] at hxz
              exact Nat.lt_irrefl _ hxz
            rw [if_neg hne]
            exact decide_eq_true hxz
          · rw [if_neg hyz] at h2
            have hxz : x.toNat < z.toNat :=
              Nat.lt_trans hlt1 (of_decide_eq_true h2)
            have hne : x ≠ z := by
              intro hc
              rw [hc] at hxz
              exact Nat.lt_irrefl _ hxz
            rw [if_neg hne]
            exact decide_eq_true hxz

/-- `charsLt` is total. -/
theorem charsLt_total (a : List Char) : ∀ b : List Char,
    charsLt a b = true ∨ a = b ∨ charsLt b a = true := by
  induction a with
  | nil =>
    intro b
    cases b with
    | nil => exact Or.inr (Or.inl rfl)
    | cons y bs => exact Or.inl rfl
  | cons x as ih =>
    intro b
    cases b with
    | nil => exact Or.inr (Or.inr rfl)
    | cons y bs =>
      by_cases hxy : x = y
      · subst hxy
        rcases ih bs with h | h | h
        · exact Or.inl (by unfold charsLt; rw [if_pos rfl]; exact h)
        · exact Or.inr (Or.inl (by rw [h]))
        · exact Or.inr (Or.inr (by unfold charsLt; rw [if_pos rfl]; exact h))
      · rcases Nat.lt_trichotomy x.toNat y.toNat with hlt | heq | hgt
        · exact Or.inl (by
            unfold charsLt
            rw [if_neg hxy]
            exact decide_eq_true hlt)
        · exact absurd (Char.eq_of_val_eq (UInt32.toNat.inj heq)) hxy
        · exact Or.inr (Or.inr (by
            unfold charsLt
            rw [if_neg (Ne.symm hxy)]
            exact decide_eq_true hgt))

/-- Strings with the same characters are equal. -/
theorem stringDataExt (a b : String) (h : a.data = b.data) : a = b := by
  cases a
  cases b
  simp only at h
  rw [h]

/-- `pathLt` is transitive. -/
theorem pathLt_trans (a : WPath) : ∀ b c : WPath,
    pathLt a b = true → pathLt b c = true → pathLt a c = true := by
  induction a with
  | nil =>
    intro b c h1 h2
    cases b with
    | nil => simp [pathLt] at h1
    | cons y bs =>
      cases c with
      | nil => simp [pathLt] at h2
      | cons z cs => rfl
  | cons x as ih =>
    intro b c h1 h2
    cases b with
    | nil => simp [pathLt] at h1
    | cons y bs =>
      cases c with
      | nil => simp [pathLt] at h2
      | cons z cs =>
        unfold pathLt at h1 h2 ⊢
        by_cases hxy : x = y
        · rw [if_pos hxy] at h1
          by_cases hyz : y = z
          · rw [if_pos hyz] at h2
            rw [if_pos (hxy.trans hyz)]
            exact ih bs cs h1 h2
          · rw [if_neg hyz] at h2
            have hxz : charsLt x.data z.data = true := by
              rw [hxy]
              exact h2
            have hne : x ≠ z :=
              fun hc => charsLt_ne _ _ hxz (congrArg String.data hc)
            rw [if_neg hne]
            exact hxz
        · rw [if_neg hxy] at h1
          by_cases hyz : y = z
          · have hxz : charsLt x.data z.data = true := by
              rw [← hyz]
              exact h1
            have hne : x ≠ z :=
              fun hc => charsLt_ne _ _ hxz (congrArg String.data hc)
            rw [if_neg hne]
            exact hxz
          · rw [if_neg hyz] at h2
            have hxz : charsLt x.data z.data = true :=
              charsLt_trans x.data y.data z.data h1 h2
            have hne : x ≠ z :=
              fun hc => charsLt_ne _ _ hxz (congrArg String.data hc)
            rw [if_neg hne]
            exact hxz

/-- `pathLt` is a total strict order. -/
theorem pathLt_total (a : WPath) : ∀ b : WPath,
    pathLt a b = true ∨ a = b ∨ pathLt b a = true := by
  induction a with
  | nil =>
    intro b
    cases b with
    | nil => exact Or.inr (Or.inl rfl)
    | cons y bs => exact Or.inl rfl
  | cons x as ih =>
    intro b
    cases b with
    | nil => exact Or.inr (Or.inr rfl)
    | cons y bs =>
      by_cases hxy : x = y
      · subst hxy
        rcases ih bs with h | h | h
        · exact Or.inl (by unfold pathLt; rw [if_pos rfl]; exact h)
        · exact Or.inr (Or.inl (by rw [h]))
        · exact Or.inr (Or.inr (by unfold pathLt; rw [if_pos rfl]; exact h))
      · rcases charsLt_total x.data y.data with h | h | h
        · exact Or.inl (by
            unfold pathLt
            rw [if_neg hxy]
            exact h)
        · exact absurd (stringDataExt x y h) hxy
        · exact Or.inr (Or.inr (by
            unfold pathLt
            rw [if_neg (Ne.symm hxy)]
            exact h))

/-- The `paths` map is strictly sorted by `pathLt` (the `BTreeMap`
representation invariant). -/
def pathsSorted (m : List (WPath × Nat × Kind)) : Prop :=
  m.Pairwise fun a b => pathLt a.1 b.1 = true

/-- A sorted `paths` map has pairwise-distinct keys. -/
theorem pathsNodup_of_sorted (m : List (WPath × Nat × Kind))
    (hs : pathsSorted m) : pathsNodup m := by
  unfold pathsNodup
  have h2 : (m.map (·.1)).Pairwise fun a b : WPath => pathLt a b = true :=
    (List.pairwise_map).mpr hs
  exact h2.imp fun h hc => by
    subst hc
    rw [pathLt_irrefl] at h
    exact Bool.noConfusion h

/-- Members of a sorted insert come from the inserted pair or the map. -/
theorem mem_insertPath (m : List (WPath × Nat × Kind)) (p : WPath)
    (v : Nat × Kind) (x : WPath × Nat × Kind) (hx : x ∈ insertPath p v m) :
    x = (p, v) ∨ x ∈ m := by
  induction m with
  | nil => simpa [insertPath] using hx
  | cons e t ih =>
    unfold insertPath at hx
    by_cases h1 : pathLt p e.1 = true
    · rw [if_pos h1] at hx
      exact List.mem_cons.mp hx
    · rw [if_neg h1] at hx
      by_cases h2 : p = e.1
      · rw [if_pos h2] at hx
        rcases List.mem_cons.mp hx with h | h
        · exact Or.inl h
        · exact Or.inr (List.mem_cons_of_mem _ h)
      · rw [if_neg h2] at hx
        rcases List.mem_cons.mp hx with h | h
        · exact Or.inr (h ▸ List.mem_cons_self _ _)
        · rcases ih h with h3 | h3
          · exact Or.inl h3
          · exact Or.inr (List.mem_cons_of_mem _ h3)

/-- A sorted insert keeps the `paths` map sorted. -/
theorem pathsSorted_insertPath (m : List (WPath × Nat × Kind)) (p : WPath)
    (v : Nat × Kind) (hs : pathsSorted m) :
    pathsSorted (insertPath p v m) := by
  induction m with
  | nil => simp [insertPath, pathsSorted]
  | cons e t ih =>
    rw [pathsSorted, List.pairwise_cons] at hs
    unfold insertPath
    by_cases h1 : pathLt p e.1 = true
    · rw [if_pos h1]
      rw [pathsSorted, List.pairwise_cons]
      constructor
      · intro b hb
        rcases List.mem_cons.mp hb with h | h
        · rw [h]
          exact h1
        · exact pathLt_trans p e.1 b.1 h1 (hs.1 b h)
      · rw [List.pairwise_cons]
        exact hs
    · rw [if_neg h1]
      by_cases h2 : p = e.1
      · rw [if_pos h2]
        rw [pathsSorted, List.pairwise_cons]
        refine ⟨fun b hb => ?_, hs.2⟩
        show pathLt p b.1 = true
        rw [h2]
        exact hs.1 b hb
      · rw [if_neg h2]
        rw [pathsSorted, List.pairwise_cons]
        constructor
        · intro b hb
          rcases mem_insertPath t p v b hb with h | h
          · rw [h]
            show pathLt e.1 p = true
            rcases pathLt_total p e.1 with hc | hc | hc
            · exact absurd hc h1
            · exact absurd hc h2
            · exact hc
          · exact hs.1 b h
        · exact ih hs.2

/-- Removal yields a sublist of the `paths` map. -/
theorem removePath_sublist (p : WPath) (m : List (WPath × Nat × Kind)) :
    (removePath p m).Sublist m := by
  induction m with
  | nil => exact List.Sublist.refl _
  | cons e t ih =>
    unfold removePath
    by_cases h : e.1 = p
    · rw [if_pos h]
      exact List.sublist_cons_self e t
    · rw [if_neg h]
      exact List.Sublist.cons₂ e ih

/-- Removal keeps the `paths` map sorted. -/
theorem pathsSorted_removePath (p : WPath) (m : List (WPath × Nat × Kind))
    (hs : pathsSorted m) : pathsSorted (removePath p m) :=
  List.Pairwise.sublist (removePath_sublist p m) hs

/-- The bijection invariant of the manager state: `paths` and `ids` are
mutually inverse on their shared domain. -/
def inverses (st : MState) : Prop :=
  (∀ p id kind, lookupPath st.paths p = some (id, kind) →
    idsLookup st.ids id = some p) ∧
  (∀ id p, idsLookup st.ids id = some p →
    ∃ kind, lookupPath st.paths p = some (id, kind))

/-- `removeStep` preserves the bijection invariant and sortedness. -/
theorem removeStep_preserves (acc : List WResult × MState) (p : WPath)
    (hinv : inverses acc.2) (hs : pathsSorted acc.2.paths) :
    inverses (removeStep acc p).2 ∧
      pathsSorted (removeStep acc p).2.paths := by
  cases hl : lookupPath acc.2.paths p with
  | none =>
    have hstep : removeStep acc p = acc := by
      unfold removeStep
      rw [hl]
    rw [hstep]
    exact ⟨hinv, hs⟩
  | some v =>
    obtain ⟨id, kind⟩ := v
    have hid : idsLookup acc.2.ids id = some p := hinv.1 p id kind hl
    have hstep : removeStep acc p =
        (acc.1 ++ [.ok (.remove kind p)],
         { acc.2 with paths := removePath p acc.2.paths,
                      ids := idsRemove id acc.2.ids }) := by
      unfold removeStep
      rw [hl]
      dsimp only
      rw [hid]
    rw [hstep]
    dsimp only
    have hnd := pathsNodup_of_sorted acc.2.paths hs
    refine ⟨⟨?_, ?_⟩, pathsSorted_removePath p acc.2.paths hs⟩
    · intro q idq kq hq
      have hqne : q ≠ p := by
        intro hc
        subst hc
        rw [lookupPath_removePath_self acc.2.paths q hnd] at hq
        exact Option.noConfusion hq
      rw [lookupPath_removePath_ne acc.2.paths p q hqne] at hq
      have hold := hinv.1 q idq kq hq
      have hidne : idq ≠ id := by
        intro hc
        subst hc
        rw [hold] at hid
        exact hqne (Option.some.inj hid)
      rw [idsLookup_idsRemove, if_neg hidne]
      exact hold
    · intro idq q hq
      rw [idsLookup_idsRemove] at hq
      by_cases hcase : idq = id
      · rw [if_pos hcase] at hq
        exact Option.noConfusion hq
      · rw [if_neg hcase] at hq
        obtain ⟨k, hk⟩ := hinv.2 idq q hq
        have hqp : q ≠ p := by
          intro hc
          subst hc
          rw [hl] at hk
          exact hcase (congrArg Prod.fst (Option.some.inj hk)).symm
        exact ⟨k, by
          rw [lookupPath_removePath_ne acc.2.paths p q hqp]
          exact hk⟩

/-- Folding `removeStep` preserves the invariant and sortedness. -/
theorem removeFold_preserves (l : List WPath) :
    ∀ acc : List WResult × MState, inverses acc.2 → pathsSorted acc.2.paths →
      inverses (l.foldl removeStep acc).2 ∧
        pathsSorted (l.foldl removeStep acc).2.paths := by
  induction l with
  | nil =>
    intro acc h1 h2
    exact ⟨h1, h2⟩
  | cons p t ih =>
    intro acc h1 h2
    rw [List.foldl_cons]
    have hstep := removeStep_preserves acc p h1 h2
    exact ih (removeStep acc p) hstep.1 hstep.2

/-- `handle_remove` preserves the bijection invariant and sortedness. -/
theorem handleRemove_preserves (st : MState) (root : WPath)
    (hinv : inverses st) (hs : pathsSorted st.paths) :
    inverses (handleRemove st root).2 ∧
      pathsSorted (handleRemove st root).2.paths := by
  unfold handleRemove
  exact removeFold_preserves _ ([], st) hinv hs

/-- `createStep` preserves the invariant when the entry's id is not yet
recorded. -/
theorem createStep_preserves (acc : List WResult × MState)
    (e : WPath × Nat × Kind) (hinv : inverses acc.2)
    (hs : pathsSorted acc.2.paths)
    (hfresh : idsLookup acc.2.ids e.2.1 = none) :
    inverses (createStep acc e).2 ∧
      pathsSorted (createStep acc e).2.paths := by
  unfold createStep
  by_cases hany : (acc.2.paths.any fun x => x.1 == e.1) = true
  · rw [if_pos hany]
    exact ⟨hinv, hs⟩
  · rw [if_neg hany]
    dsimp only
    have hnone : lookupPath acc.2.paths e.1 = none := by
      apply lookupPath_eq_none
      intro x hx hc
      exact hany (List.any_eq_true.mpr ⟨x, hx, by simpa using hc⟩)
    refine ⟨⟨?_, ?_⟩,
      pathsSorted_insertPath acc.2.paths e.1 (e.2.1, e.2.2) hs⟩
    · intro q idq kq hq
      rw [lookupPath_insertPath] at hq
      by_cases hqe : q = e.1
      · rw [if_pos hqe] at hq
        have hfst : e.2.1 = idq :=
          congrArg Prod.fst (Option.some.inj hq)
        rw [idsLookup_idsInsert, if_pos hfst.symm, hqe]
      · rw [if_neg hqe] at hq
        have hold := hinv.1 q idq kq hq
        have hne : idq ≠ e.2.1 := by
          intro hc
          rw [hc, hfresh] at hold
          exact Option.noConfusion hold
        rw [idsLookup_idsInsert, if_neg hne]
        exact hold
    · intro idq q hq
      rw [idsLookup_idsInsert] at hq
      by_cases hcase : idq = e.2.1
      · rw [if_pos hcase] at hq
        have hqe : q = e.1 := (Option.some.inj hq).symm
        refine ⟨e.2.2, ?_⟩
        rw [lookupPath_insertPath, if_pos hqe, hcase]
      · rw [if_neg hcase] at hq
        obtain ⟨k, hk⟩ := hinv.2 idq q hq
        have hqe : q ≠ e.1 := by
          intro hc
          rw [hc, hnone] at hk
          exact Option.noConfusion hk
        exact ⟨k, by
          rw [lookupPath_insertPath, if_neg hqe]
          exact hk⟩

/-- A skipped-or-recorded create step leaves the other ids unchanged. -/
theorem createStep_ids_lookup_ne (acc : List WResult × MState)
    (e : WPath × Nat × Kind) (id2 : Nat) (h : id2 ≠ e.2.1) :
    idsLookup (createStep acc e).2.ids id2 = idsLookup acc.2.ids id2 := by
  unfold createStep
  by_cases hany : (acc.2.paths.any fun x => x.1 == e.1) = true
  · rw [if_pos hany]
  · rw [if_neg hany]
    dsimp only
    rw [idsLookup_idsInsert, if_neg h]

/-- Folding `createStep` preserves the invariant, for entries whose ids are
fresh and pairwise distinct. -/
theorem createFold_preserves (l : List (WPath × Nat × Kind)) :
    ∀ acc : List WResult × MState, inverses acc.2 → pathsSorted acc.2.paths →
      (∀ e ∈ l, idsLookup acc.2.ids e.2.1 = none) →
      l.Pairwise (fun a b => a.2.1 ≠ b.2.1) →
      inverses (l.foldl createStep acc).2 ∧
        pathsSorted (l.foldl createStep acc).2.paths := by
  induction l with
  | nil =>
    intro acc h1 h2 _ _
    exact ⟨h1, h2⟩
  | cons e t ih =>
    intro acc h1 h2 hfr hpw
    rw [List.foldl_cons]
    rw [List.pairwise_cons] at hpw
    have hstep :=
      createStep_preserves acc e h1 h2 (hfr e (List.mem_cons_self e t))
    refine ih (createStep acc e) hstep.1 hstep.2 ?_ hpw.2
    intro x hx
    have hxne : x.2.1 ≠ e.2.1 := Ne.symm (hpw.1 x hx)
    rw [createStep_ids_lookup_ne acc e x.2.1 hxne]
    exact hfr x (List.mem_cons_of_mem e hx)

/-- `handle_create` preserves the invariant when the walked ids are fresh
and pairwise distinct. -/
theorem handleCreate_preserves (fs : WFs) (st : MState) (root : WPath)
    (hinv : inverses st) (hs : pathsSorted st.paths)
    (hfr : ∀ e ∈ walkFs fs root, idsLookup st.ids e.2.1 = none)
    (hpw : (walkFs fs root).Pairwise fun a b => a.2.1 ≠ b.2.1) :
    inverses (handleCreate fs st root).2 ∧
      pathsSorted (handleCreate fs st root).2.paths := by
  unfold handleCreate
  exact createFold_preserves (walkFs fs root) ([], st) hinv hs hfr hpw

/-- `renameStep` preserves the invariant when the entry's target path is
either untracked or the id's own previous path. -/
theorem renameStep_preserves (acc : List WResult × MState)
    (e : WPath × Nat × Kind) (hinv : inverses acc.2)
    (hs : pathsSorted acc.2.paths)
    (htgt : lookupPath acc.2.paths e.1 = none ∨
      idsLookup acc.2.ids e.2.1 = some e.1) :
    inverses (renameStep acc e).2 ∧
      pathsSorted (renameStep acc e).2.paths := by
  cases hprev : idsLookup acc.2.ids e.2.1 with
  | none =>
    have hstep : renameStep acc e = acc := by
      unfold renameStep
      rw [hprev]
    rw [hstep]
    exact ⟨hinv, hs⟩
  | some prev =>
    cases hlp : lookupPath acc.2.paths prev with
    | none =>
      have hstep : renameStep acc e = acc := by
        unfold renameStep
        rw [hprev]
        dsimp only
        rw [hlp]
      rw [hstep]
      exact ⟨hinv, hs⟩
    | some v =>
      obtain ⟨id2, kind⟩ := v
      have hid2 : id2 = e.2.1 := by
        obtain ⟨k, hk⟩ := hinv.2 e.2.1 prev hprev
        rw [hlp] at hk
        exact congrArg Prod.fst (Option.some.inj hk)
      have hnd := pathsNodup_of_sorted acc.2.paths hs
      have hsort2 : pathsSorted (insertPath e.1 (id2, kind)
          (removePath prev acc.2.paths)) :=
        pathsSorted_insertPath _ e.1 (id2, kind)
          (pathsSorted_removePath prev acc.2.paths hs)
      by_cases hmove : e.1 = prev
      · have hstep : renameStep acc e =
            (acc.1, { acc.2 with
              paths := (insertPath e.1 (id2, kind)
                (removePath prev acc.2.paths)) }) := by
          unfold renameStep
          rw [hprev]
          dsimp only
          rw [hlp]
          dsimp only
          rw [if_pos hmove]
        rw [hstep]
        dsimp only
        subst hmove
        refine ⟨⟨?_, ?_⟩, hsort2⟩
        · intro q idq kq hq
          rw [lookupPath_insertPath] at hq
          by_cases hqe : q = e.1
          · rw [if_pos hqe] at hq
            have hidq : idq = e.2.1 := by
              have hfst : id2 = idq := congrArg Prod.fst (Option.some.inj hq)
              rw [← hfst]
              exact hid2
            rw [hidq, hprev, hqe]
          · rw [if_neg hqe, lookupPath_removePath_ne _ _ _ hqe] at hq
            exact hinv.1 q idq kq hq
        · intro idq q hq
          obtain ⟨k, hk⟩ := hinv.2 idq q hq
          by_cases hqe : q = e.1
          · subst hqe
            rw [hlp] at hk
            have hfst : id2 = idq := congrArg Prod.fst (Option.some.inj hk)
            exact ⟨kind, by rw [lookupPath_insertPath, if_pos rfl, hfst]⟩
          · refine ⟨k, ?_⟩
            rw [lookupPath_insertPath, if_neg hqe,
              lookupPath_removePath_ne _ _ _ hqe]
            exact hk
      · have hstep : renameStep acc e =
            (acc.1 ++ [.ok (.rename kind prev e.1)],
             { acc.2 with
               paths := (insertPath e.1 (id2, kind)
                 (removePath prev acc.2.paths)),
               ids := idsInsert e.2.1 e.1 acc.2.ids }) := by
          unfold renameStep
          rw [hprev]
          dsimp only
          rw [hlp]
          dsimp only
          rw [if_neg hmove]
        rw [hstep]
        dsimp only
        have hnone : lookupPath acc.2.paths e.1 = none := by
          rcases htgt with h | h
          · exact h
          · rw [hprev] at h
            exact absurd (Option.some.inj h) fun hc => hmove hc.symm
        refine ⟨⟨?_, ?_⟩, hsort2⟩
        · intro q idq kq hq
          rw [lookupPath_insertPath] at hq
          by_cases hqe : q = e.1
          · rw [if_pos hqe] at hq
            have hidq : idq = e.2.1 := by
              have hfst : id2 = idq := congrArg Prod.fst (Option.some.inj hq)
              rw [← hfst]
              exact hid2
            rw [idsLookup_idsInsert, if_pos hidq, hqe]
          · rw [if_neg hqe] at hq
            have hqprev : q ≠ prev := by
              intro hc
              subst hc
              rw [lookupPath_removePath_self _ _ hnd] at hq
              exact Option.noConfusion hq
            rw [lookupPath_removePath_ne _ _ _ hqprev] at hq
            have hold := hinv.1 q idq kq hq
            have hidne : idq ≠ e.2.1 := by
              intro hc
              subst hc
              rw [hprev] at hold
              exact hqprev (Option.some.inj hold).symm
            rw [idsLookup_idsInsert, if_neg hidne]
            exact hold
        · intro idq q hq
          rw [idsLookup_idsInsert] at hq
          by_cases hcase : idq = e.2.1
          · rw [if_pos hcase] at hq
            have hqe : q = e.1 := (Option.some.inj hq).symm
            refine ⟨kind, ?_⟩
            rw [lookupPath_insertPath, if_pos hqe, hcase, ← hid2]
          · rw [if_neg hcase] at hq
            obtain ⟨k, hk⟩ := hinv.2 idq q hq
            have hq1 : q ≠ e.1 := by
              intro hc
              rw [hc, hnone] at hk
              exact Option.noConfusion hk
            have hq2 : q ≠ prev := by
              intro hc
              rw [hc, hlp] at hk
              refine hcase ?_
              have hfst : id2 = idq := congrArg Prod.fst (Option.some.inj hk)
              rw [← hfst]
              exact hid2
            refine ⟨k, ?_⟩
            rw [lookupPath_insertPath, if_neg hq1,
              lookupPath_removePath_ne _ _ _ hq2]
            exact hk

/-- `handle_rename` preserves the invariant for a one-entry walk whose
target is untracked or unchanged. -/
theorem handleRename_preserves_single (fs : WFs) (st : MState) (root : WPath)
    (e : WPath × Nat × Kind) (hw : walkFs fs root = [e])
    (hinv : inverses st) (hs : pathsSorted st.paths)
    (htgt : lookupPath st.paths e.1 = none ∨
      idsLookup st.ids e.2.1 = some e.1) :
    inverses (handleRename fs st root).2 ∧
      pathsSorted (handleRename fs st root).2.paths := by
  unfold handleRename
  rw [hw, List.foldl_cons, List.foldl_nil]
  exact renameStep_preserves ([], st) e hinv hs htgt

/-- `follow` never touches `paths` or `ids`. -/
theorem follow_preserves_paths_ids (fs : WFs) (st : MState) (ev : Event) :
    (follow fs st ev).2.paths = st.paths ∧
      (follow fs st ev).2.ids = st.ids := by
  cases ev with
  | create k p =>
    unfold follow
    dsimp only
    cases h : fs.canon p <;> dsimp only <;> exact ⟨rfl, rfl⟩
  | modify k p => exact ⟨rfl, rfl⟩
  | rename k src dst =>
    unfold follow
    dsimp only
    by_cases h : (st.links.any fun e => e.2.contains src) = true
    · rw [if_pos h]
      exact ⟨rfl, rfl⟩
    · rw [if_neg h]
      cases h2 : fs.canon dst <;> dsimp only <;> exact ⟨rfl, rfl⟩
  | remove k p => exact ⟨rfl, rfl⟩

/-- `follow` preserves the bijection invariant and sortedness. -/
theorem follow_preserves_inverses (fs : WFs) (st : MState) (ev : Event)
    (hinv : inverses st) (hs : pathsSorted st.paths) :
    inverses (follow fs st ev).2 ∧
      pathsSorted (follow fs st ev).2.paths := by
  obtain ⟨hp, hi⟩ := follow_preserves_paths_ids fs st ev
  refine ⟨⟨?_, ?_⟩, by rw [hp]; exact hs⟩
  · intro q idq kq hq
    rw [hp] at hq
    rw [hi]
    exact hinv.1 q idq kq hq
  · intro idq q hq
    rw [hi] at hq
    rw [hp]
    exact hinv.2 idq q hq

/-- Fixture filesystem for the id-collision run: the object at `q` carries
the file id 1, which the state already maps to `p`. -/
def c7Fs : WFs :=
  { entries := [(["q"], 1, .file)],
    canon := fun _ => none,
    readLink := fun _ => none }

/-- Fixture state for the id-collision run: `p` is tracked with id 1. -/
def c7St : MState :=
  { paths := [(["p"], 1, .file)], links := [], ids := [(1, ["p"])] }

/-- C7, counterexample: processing a batch that creates a second path whose
file id is already recorded leaves `paths` with an entry (`p ↦ 1`) whose id
no longer points back at it (`ids` maps 1 to `q`), so the bijection claimed
for every operation is broken by `handle` itself. -/
theorem handle_not_bijective_on_id_collision :
    lookupPath (handle c7Fs [["q"]] c7St).2.paths ["p"] = some (1, .file) ∧
    idsLookup (handle c7Fs [["q"]] c7St).2.ids 1 = some ["q"] ∧
    ¬ inverses (handle c7Fs [["q"]] c7St).2 := by
  refine ⟨by decide, by decide, fun hinv => ?_⟩
  have h1 : lookupPath (handle c7Fs [["q"]] c7St).2.paths ["p"]
      = some (1, .file) := by decide
  have h2 := hinv.1 ["p"] 1 .file h1
  have h3 : idsLookup (handle c7Fs [["q"]] c7St).2.ids 1
      = some ["q"] := by decide
  rw [h3] at h2
  exact absurd (Option.some.inj h2) (by decide)

/-- C7, amended: the bijection between `paths` and `ids` (together with the
map's sortedness) is preserved by `handle_remove` unconditionally, by
`handle_create` when the walked entries carry fresh, pairwise-distinct file
ids, by `handle_rename` when the walk is a single entry whose target path
is untracked or is the id's own recorded path, and by `follow`
unconditionally. -/
theorem manager_ops_preserve_inverses (fs : WFs) (st : MState)
    (root : WPath) (e : WPath × Nat × Kind) (ev : Event)
    (hinv : inverses st) (hs : pathsSorted st.paths) :
    (inverses (handleRemove st root).2 ∧
      pathsSorted (handleRemove st root).2.paths) ∧
    ((∀ x ∈ walkFs fs root, idsLookup st.ids x.2.1 = none) →
      (walkFs fs root).Pairwise (fun a b => a.2.1 ≠ b.2.1) →
      inverses (handleCreate fs st root).2 ∧
        pathsSorted (handleCreate fs st root).2.paths) ∧
    (walkFs fs root = [e] →
      (lookupPath st.paths e.1 = none ∨ idsLookup st.ids e.2.1 = some e.1) →
      inverses (handleRename fs st root).2 ∧
        pathsSorted (handleRename fs st root).2.paths) ∧
    (inverses (follow fs st ev).2 ∧
      pathsSorted (follow fs st ev).2.paths) :=
  ⟨handleRemove_preserves st root hinv hs,
    fun hfr hpw => handleCreate_preserves fs st root hinv hs hfr hpw,
    fun hw htgt => handleRename_preserves_single fs st root e hw hinv hs htgt,
    follow_preserves_inverses fs st ev hinv hs⟩

/-- The fixture state is bijective. -/
theorem inverses_c7St : inverses c7St := by
  constructor
  · intro q idq kq hq
    rw [show c7St.paths = [(["p"], 1, .file)] from rfl, lookupPath_cons] at hq
    by_cases h : (["p"] : WPath) = q
    · rw [if_pos h] at hq
      have hp := Option.some.inj hq
      have hfst : (1 : Nat) = idq := congrArg Prod.fst hp
      rw [← hfst, ← h]
      decide
    · rw [if_neg h, lookupPath_nil] at hq
      exact Option.noConfusion hq
  · intro idq q hq
    rw [show c7St.ids = [(1, ["p"])] from rfl, idsLookup_cons] at hq
    by_cases h : (1 : Nat) = idq
    · rw [if_pos h] at hq
      have hp := Option.some.inj hq
      refine ⟨.file, ?_⟩
      rw [← hp, ← h]
      decide
    · rw [if_neg h, idsLookup_nil] at hq
      exact Option.noConfusion hq

/-- Witness for the amended C7, read off at the fixture state: the removal
branch at root `p`. -/
theorem manager_ops_preserve_inverses_witness :
    inverses (handleRemove c7St ["p"]).2 ∧
      pathsSorted (handleRemove c7St ["p"]).2.paths :=
  (manager_ops_preserve_inverses c7Fs c7St ["p"] (["q"], 1, .file)
    (.modify .file ["p"]) inverses_c7St
    (by simp [pathsSorted, c7St])).1

/-- C6: rename coalescing.  In a state that tracks `old` under file id `f`
(no links), a batch `[old, new]` where `old` vanished from the filesystem
and `new` exists with the same id `f` makes `handle` emit exactly one
event — `Rename(old, new)` of the recorded kind, no Remove and no Create —
and migrates `paths`/`ids` so that `f` now maps to `new`. -/
theorem handle_rename_coalesce (fs : WFs) (st : MState)
    (old new : WPath) (f : Nat) (kind kindFS : Kind)
    (hlinks : st.links = [])
    (hkind : kind ≠ .link)
    (hne : old ≠ new)
    (hpold : lookupPath st.paths old = some (f, kind))
    (hids : idsLookup st.ids f = some old)
    (hfsold : fs.stat old = none)
    (hfsnew : fs.stat new = some (f, kindFS))
    (hwalk : walkFs fs new = [(new, f, kindFS)]) :
    handle fs [old, new] st =
      ([.ok (.rename kind old new)],
       { paths := insertPath new (f, kind) (removePath old st.paths),
         links := st.links,
         ids := idsInsert f new st.ids }) := by
  have hbeq : (new == old) = false := by
    simpa using Ne.symm hne
  have hded : dedupKeepFirst [old, new] = [old, new] := by
    simp [dedupKeepFirst, hbeq]
  have hp1 : pass1 fs [old, new] [] = ([old], [(f, new)]) := by
    unfold pass1
    rw [hfsold]
    dsimp only
    unfold pass1
    rw [hfsnew]
    dsimp only
    rw [idsLookup_nil]
    dsimp only
    unfold pass1
    rfl
  have hrn : handleRename fs st new =
      ([.ok (.rename kind old new)],
       { st with
         paths := (insertPath new (f, kind) (removePath old st.paths)),
         ids := idsInsert f new st.ids }) := by
    unfold handleRename
    rw [hwalk, List.foldl_cons, List.foldl_nil]
    unfold renameStep
    dsimp only
    rw [hids]
    dsimp only
    rw [hpold]
    dsimp only
    rw [if_neg fun hc => hne hc.symm]
    simp only [List.nil_append]
  have hcr : chgRemove f [(f, new)] = (some new, []) := by
    simp [chgRemove, idsLookup_cons, idsRemove]
  have hp2 : pass2 fs [old] st [(f, new)] [] =
      ([], ({ st with
        paths := (insertPath new (f, kind) (removePath old st.paths)),
        ids := idsInsert f new st.ids } : MState), [],
        [.ok (.rename kind old new)]) := by
    unfold pass2
    rw [hpold]
    dsimp only
    rw [hcr]
    dsimp only
    rw [hrn]
    dsimp only
    unfold pass2
    rfl
  show handle fs [old, new] st = _
  unfold handle
  rw [hded, hp1]
  dsimp only
  rw [hp2]
  dsimp only
  unfold pass3
  dsimp only
  unfold pass4
  dsimp only
  unfold spreadPhase
  rw [show ({ st with
        paths := (insertPath new (f, kind) (removePath old st.paths)),
        ids := idsInsert f new st.ids } : MState).links = st.links from rfl,
    hlinks]
  dsimp only [List.isEmpty]
  rw [if_pos rfl]
  unfold followPhase
  dsimp only [List.enum, List.enumFrom, List.foldl_cons, List.foldl_nil]
  rw [show Event.kind (.rename kind old new) = kind from rfl]
  rw [if_neg hkind]
  rfl

/-- Fixture filesystem for the C6 witness: `r/b` exists with file id 7. -/
def c6Fs : WFs :=
  { entries := [(["r", "b"], 7, .file)],
    canon := fun _ => none,
    readLink := fun _ => none }

/-- Fixture state for the C6 witness: `r/a` is tracked with file id 7. -/
def c6St : MState :=
  { paths := [(["r", "a"], 7, .file)],
    links := [],
    ids := [(7, ["r", "a"])] }

/-- Witness for C6 at the fixture: the batch `[r/a, r/b]` coalesces into a
single rename. -/
theorem handle_rename_coalesce_witness :
    handle c6Fs [["r", "a"], ["r", "b"]] c6St =
      ([.ok (.rename .file ["r", "a"] ["r", "b"])],
       { paths := insertPath ["r", "b"] (7, .file)
           (removePath ["r", "a"] c6St.paths),
         links := c6St.links,
         ids := idsInsert 7 ["r", "b"] c6St.ids }) :=
  handle_rename_coalesce c6Fs c6St ["r", "a"] ["r", "b"] 7 .file .file
    rfl (by decide) (by decide) (by decide) (by decide) (by decide)
    (by decide) (by decide)

/-- A path is below any of its proper extensions. -/
theorem pathLt_self_append (p : WPath) (y : String) (t : List String) :
    pathLt p (p ++ y :: t) = true := by
  induction p with
  | nil => rfl
  | cons c cs ih =>
    show pathLt (c :: cs) (c :: (cs ++ y :: t)) = true
    unfold pathLt
    rw [if_pos rfl]
    exact ih

/-- Extensions of a common prefix compare by their first own component. -/
theorem pathLt_append_lt (p : WPath) (x y : String) (s t : List String)
    (h : charsLt x.data y.data = true) :
    pathLt (p ++ x :: s) (p ++ y :: t) = true := by
  induction p with
  | nil =>
    show pathLt (x :: s) (y :: t) = true
    unfold pathLt
    rw [if_neg fun hc => charsLt_ne _ _ h (congrArg String.data hc)]
    exact h
  | cons c cs ih =>
    show pathLt (c :: (cs ++ x :: s)) (c :: (cs ++ y :: t)) = true
    unfold pathLt
    rw [if_pos rfl]
    exact ih

/-- The subtree state of the C5 scenario: a folder `F` with exactly the
two files `F/a` and `F/b` recorded under ids 1, 2, 3. -/
def c5State (F : WPath) (a b : String) : MState :=
  { paths := [(F, (1, Kind.folder)), (F ++ [a], (2, Kind.file)),
      (F ++ [b], (3, Kind.file))],
    links := [],
    ids := [(1, F), (2, F ++ [a]), (3, F ++ [b])] }

/-- C5, amended: removing a recorded folder `F` holding exactly the files
`F/a` and `F/b` (with `a` before `b`) emits the removals children first in
reverse-lexicographic order — `Remove(F/b)`, `Remove(F/a)`, `Remove(F)` —
and deletes all three entries from `paths` and `ids`; the recorded state
is a valid (sorted) `BTreeMap` image. -/
theorem handle_remove_subtree (fs : WFs) (F : WPath) (a b : String)
    (hab : charsLt a.data b.data = true)
    (hfs : fs.stat F = none) :
    pathsSorted (c5State F a b).paths ∧
    handle fs [F] (c5State F a b) =
      ([.ok (.remove .file (F ++ [b])), .ok (.remove .file (F ++ [a])),
        .ok (.remove .folder F)],
       { paths := [], links := [], ids := [] }) := by
  have hne : a ≠ b := fun hc => charsLt_ne _ _ hab (congrArg String.data hc)
  have hlen : ∀ (p : WPath) (x : String), p ≠ p ++ [x] := by
    intro p x hc
    have hlen2 := congrArg List.length hc
    simp only [List.length_append, List.length_cons, List.length_nil] at hlen2
    omega
  have happne : F ++ [a] ≠ F ++ [b] := by
    intro hc
    exact hne (by simpa using List.append_cancel_left hc)
  have hpre0 : F.isPrefixOf F = true := by
    rw [List.isPrefixOf_iff_prefix]
  have hpre : ∀ x : String, F.isPrefixOf (F ++ [x]) = true := by
    intro x
    rw [List.isPrefixOf_iff_prefix]
    exact List.prefix_append F [x]
  refine ⟨?_, ?_⟩
  · show pathsSorted [(F, (1, Kind.folder)), (F ++ [a], (2, Kind.file)),
      (F ++ [b], (3, Kind.file))]
    unfold pathsSorted
    rw [List.pairwise_cons]
    refine ⟨?_, ?_⟩
    · intro e he
      rcases List.mem_cons.mp he with h | h
      · rw [h]
        exact pathLt_self_append F a []
      · rcases List.mem_cons.mp h with h2 | h2
        · rw [h2]
          exact pathLt_self_append F b []
        · simp at h2
    · rw [List.pairwise_cons]
      refine ⟨?_, ?_⟩
      · intro e he
        rcases List.mem_cons.mp he with h | h
        · rw [h]
          exact pathLt_append_lt F a b [] [] hab
        · simp at h
      · simp
  · have hlF : lookupPath (c5State F a b).paths F = some (1, Kind.folder) := by
      show lookupPath [(F, (1, Kind.folder)), (F ++ [a], (2, Kind.file)),
        (F ++ [b], (3, Kind.file))] F = some (1, Kind.folder)
      rw [lookupPath_cons]
      dsimp only
      rw [if_pos rfl]
    have hl3 : lookupPath (c5State F a b).paths (F ++ [b])
        = some (3, Kind.file) := by
      show lookupPath [(F, (1, Kind.folder)), (F ++ [a], (2, Kind.file)),
        (F ++ [b], (3, Kind.file))] (F ++ [b]) = some (3, Kind.file)
      simp [lookupPath_cons, hlen F b, happne]
    have hr3 : removePath (F ++ [b]) (c5State F a b).paths
        = [(F, (1, Kind.folder)), (F ++ [a], (2, Kind.file))] := by
      show removePath (F ++ [b]) [(F, (1, Kind.folder)),
        (F ++ [a], (2, Kind.file)), (F ++ [b], (3, Kind.file))] = _
      simp [removePath, hlen F b, happne]
    have hi3 : idsLookup (c5State F a b).ids 3 = some (F ++ [b]) := by
      show idsLookup [(1, F), (2, F ++ [a]), (3, F ++ [b])] 3 = _
      simp [idsLookup_cons]
    have hir3 : idsRemove 3 (c5State F a b).ids = [(1, F), (2, F ++ [a])] := by
      show idsRemove 3 [(1, F), (2, F ++ [a]), (3, F ++ [b])] = _
      simp [idsRemove]
    have hstep1 : removeStep ([], c5State F a b) (F ++ [b]) =
        ([.ok (.remove .file (F ++ [b]))],
         { paths := [(F, (1, Kind.folder)), (F ++ [a], (2, Kind.file))],
           links := [],
           ids := [(1, F), (2, F ++ [a])] }) := by
      unfold removeStep
      dsimp only
      rw [hl3]
      dsimp only
      rw [hi3]
      dsimp only
      rw [hr3, hir3]
      rfl
    have hl2 : lookupPath [(F, (1, Kind.folder)), (F ++ [a], (2, Kind.file))]
        (F ++ [a]) = some (2, Kind.file) := by
      simp [lookupPath_cons, hlen F a]
    have hr2 : removePath (F ++ [a]) [(F, (1, Kind.folder)),
        (F ++ [a], (2, Kind.file))] = [(F, (1, Kind.folder))] := by
      simp [removePath, hlen F a]
    have hi2 : idsLookup [(1, F), (2, F ++ [a])] 2 = some (F ++ [a]) := by
      simp [idsLookup_cons]
    have hir2 : idsRemove 2 [(1, F), (2, F ++ [a])] = [(1, F)] := by
      simp [idsRemove]
    have hstep2 : removeStep ([.ok (.remove .file (F ++ [b]))],
        ({ paths := [(F, (1, Kind.folder)), (F ++ [a], (2, Kind.file))],
           links := [],
           ids := [(1, F), (2, F ++ [a])] } : MState)) (F ++ [a]) =
        ([.ok (.remove .file (F ++ [b])), .ok (.remove .file (F ++ [a]))],
         { paths := [(F, (1, Kind.folder))],
           links := [],
           ids := [(1, F)] }) := by
      unfold removeStep
      dsimp only
      rw [hl2]
      dsimp only
      rw [hi2]
      dsimp only
      rw [hr2, hir2]
      rfl
    have hl1 : lookupPath [(F, (1, Kind.folder))] F
        = some (1, Kind.folder) := by
      rw [lookupPath_cons]
      dsimp only
      rw [if_pos rfl]
    have hr1 : removePath F [(F, (1, Kind.folder))] = [] := by
      simp [removePath]
    have hi1 : idsLookup [(1, F)] 1 = some F := by
      simp [idsLookup_cons]
    have hir1 : idsRemove 1 [(1, F)] = [] := by
      simp [idsRemove]
    have hstep3 : removeStep ([.ok (.remove .file (F ++ [b])),
        .ok (.remove .file (F ++ [a]))],
        ({ paths := [(F, (1, Kind.folder))],
           links := [],
           ids := [(1, F)] } : MState)) F =
        ([.ok (.remove .file (F ++ [b])), .ok (.remove .file (F ++ [a])),
          .ok (.remove .folder F)],
         { paths := [], links := [], ids := [] }) := by
      unfold removeStep
      dsimp only
      rw [hl1]
      dsimp only
      rw [hi1]
      dsimp only
      rw [hr1, hir1]
      rfl
    have hcol : (((c5State F a b).paths.dropWhile
        fun e => pathLt e.1 F).takeWhile
          fun e => F.isPrefixOf e.1).map (·.1)
        = [F, F ++ [a], F ++ [b]] := by
      show (([(F, (1, Kind.folder)), (F ++ [a], (2, Kind.file)),
        (F ++ [b], (3, Kind.file))].dropWhile
          fun e => pathLt e.1 F).takeWhile
            fun e => F.isPrefixOf e.1).map (·.1) = _
      simp [List.dropWhile_cons, List.takeWhile_cons, pathLt_irrefl,
        hpre0, hpre]
    have hrm : handleRemove (c5State F a b) F =
        ([.ok (.remove .file (F ++ [b])), .ok (.remove .file (F ++ [a])),
          .ok (.remove .folder F)],
         { paths := [], links := [], ids := [] }) := by
      show ((((c5State F a b).paths.dropWhile
        fun e => pathLt e.1 F).takeWhile
          fun e => F.isPrefixOf e.1).map (·.1)).reverse.foldl removeStep
            ([], c5State F a b) = _
      rw [hcol]
      rw [show ([F, F ++ [a], F ++ [b]] : List WPath).reverse
        = [F ++ [b], F ++ [a], F] from by simp]
      rw [List.foldl_cons, hstep1, List.foldl_cons, hstep2, List.foldl_cons,
        hstep3, List.foldl_nil]
    have hp1 : pass1 fs [F] [] = ([F], []) := by
      unfold pass1
      rw [hfs]
      rfl
    have hp2 : pass2 fs [F] (c5State F a b) [] [] =
        ([F], c5State F a b, [], []) := by
      unfold pass2
      rw [hlF]
      dsimp only
      rw [show chgRemove 1 [] = ((none : Option WPath),
        ([] : List (Nat × WPath))) from rfl]
      dsimp only
      unfold pass2
      rfl
    have hany : ((c5State F a b).paths.any fun e => e.1 == F) = true := by
      show ([(F, (1, Kind.folder)), (F ++ [a], (2, Kind.file)),
        (F ++ [b], (3, Kind.file))].any fun e => e.1 == F) = true
      simp
    have hp4 : pass4 [F] (c5State F a b) [] =
        (({ paths := [], links := [], ids := [] } : MState),
         [.ok (.remove .file (F ++ [b])), .ok (.remove .file (F ++ [a])),
          .ok (.remove .folder F)]) := by
      unfold pass4
      rw [if_pos hany]
      dsimp only
      rw [hrm]
      dsimp only
      unfold pass4
      rfl
    show handle fs [F] (c5State F a b) = _
    unfold handle
    rw [show dedupKeepFirst [F] = [F] from rfl, hp1]
    dsimp only
    rw [hp2]
    dsimp only
    unfold pass3
    dsimp only
    rw [hp4]
    dsimp only
    unfold spreadPhase
    dsimp only [List.isEmpty]
    rw [if_pos rfl]
    unfold followPhase
    dsimp only [List.enum, List.enumFrom, List.foldl_cons, List.foldl_nil,
      Event.kind]
    rw [if_neg (by decide : ¬ Kind.folder = Kind.link)]
    rw [if_neg (by decide : ¬ Kind.file = Kind.link)]
    rw [if_neg (by decide : ¬ Kind.file = Kind.link)]
    rfl

/-- Fixture filesystem for the C5 counterexample and witness: nothing
exists on disk. -/
def c5Fs : WFs :=
  { entries := [], canon := fun _ => none, readLink := fun _ => none }

/-- C5, counterexample: the claimed order `Remove(F/a), Remove(F/b),
Remove(F)` is wrong — the folder removal emits the children in
reverse-lexicographic order, `F/b` before `F/a`. -/
theorem handle_remove_order_counterexample :
    (handle c5Fs [["f"]] (c5State ["f"] "a" "b")).1 =
      [.ok (.remove .file ["f", "b"]), .ok (.remove .file ["f", "a"]),
       .ok (.remove .folder ["f"])] ∧
    (handle c5Fs [["f"]] (c5State ["f"] "a" "b")).1 ≠
      [.ok (.remove .file ["f", "a"]), .ok (.remove .file ["f", "b"]),
       .ok (.remove .folder ["f"])] := by
  decide

/-- Witness for the amended C5 at `F = ["f"]`, `a = "a"`, `b = "b"`. -/
theorem handle_remove_subtree_witness :
    pathsSorted (c5State ["f"] "a" "b").paths ∧
    handle c5Fs [["f"]] (c5State ["f"] "a" "b") =
      ([.ok (.remove .file ["f", "b"]), .ok (.remove .file ["f", "a"]),
        .ok (.remove .folder ["f"])],
       { paths := [], links := [], ids := [] }) :=
  handle_remove_subtree c5Fs ["f"] "a" "b" (by decide) (by decide)

end Watch

end Zensical